import Mathlib

/-!
Verification development for the Word Visualizer application
(`src/App.tsx`): a shallow embedding of its model-loading, word
classification, paragraph extraction and state-management logic,
together with theorems settling the specification's claims.

Modelling conventions:
* JavaScript `Map` objects become insertion-ordered association lists
  (`JsMap`): `set` on an existing key updates the value in place,
  otherwise it appends.
* Numbers are exact rationals (`ℚ`); `Number(string)` is modelled for
  decimal numerals (the only forms the CSV contract uses).  Non-decimal
  forms (hex, `Infinity`, ...) are treated as unparseable.
* Strings are processed through their character lists; the character
  classes of the regexes `\w`, `\s`, `\d` are modelled over ASCII, as is
  `toLowerCase`.
* The remote dictionary request is modelled by a `DictResponse` value:
  a network/JSON failure, a well-formed payload without a first meaning,
  or a first meaning carrying its definition strings and an optional
  part-of-speech tag.  Code paths that would throw inside the `try`
  blocks (e.g. reading `definitions[0].definition` when absent) are
  folded into the corresponding catch branches.
* React state is a record `AppState`; `setX(value)` becomes a functional
  update, `setX(prev => ...)` an update of the evolving state.  Async
  handlers that read captured (stale) state are given the captured
  snapshot explicitly.
-/

namespace WordViz

/-! ### JavaScript `Map` as an insertion-ordered association list -/

abbrev JsMap (α β : Type) := List (α × β)

def jsMapContains [DecidableEq α] (m : JsMap α β) (k : α) : Bool :=
  m.any (fun p => p.1 = k)

def jsMapGet [DecidableEq α] (m : JsMap α β) (k : α) : Option β :=
  (m.find? (fun p => p.1 = k)).map (fun p => p.2)

def jsMapSet [DecidableEq α] (m : JsMap α β) (k : α) (v : β) : JsMap α β :=
  if jsMapContains m k then
    m.map (fun p => if p.1 = k then (k, v) else p)
  else m ++ [(k, v)]

def jsMapKeys (m : JsMap α β) : List α := m.map (fun p => p.1)

/-! ### Character classes and string helpers (ASCII model of the JS ones) -/

def isWsChar (c : Char) : Bool :=
  c == ' ' || c == '\t' || c == '\n' || c == '\r'

def isQuoteChar (c : Char) : Bool :=
  c == Char.ofNat 34 || c == Char.ofNat 39

def isWordChar (c : Char) : Bool :=
  (decide ('a' ≤ c) && decide (c ≤ 'z')) ||
  (decide ('A' ≤ c) && decide (c ≤ 'Z')) ||
  (decide ('0' ≤ c) && decide (c ≤ '9')) ||
  c == '_'

def isDigitChar (c : Char) : Bool :=
  decide ('0' ≤ c) && decide (c ≤ '9')

def jsLowerChar (c : Char) : Char :=
  if decide ('A' ≤ c) && decide (c ≤ 'Z') then Char.ofNat (c.toNat + 32) else c

def jsLowerList (cs : List Char) : List Char := cs.map jsLowerChar

def jsLower (s : String) : String := String.mk (jsLowerList s.data)

def jsTrimList (cs : List Char) : List Char :=
  ((cs.dropWhile isWsChar).reverse.dropWhile isWsChar).reverse

def jsTrim (s : String) : String := String.mk (jsTrimList s.data)

/-- `s.replace(/^["']|["']$/g, '')`: strips one leading and one trailing
quote character. -/
def stripQuotesList (cs : List Char) : List Char :=
  let cs1 := match cs with
    | c :: rest => if isQuoteChar c then rest else cs
    | [] => []
  match cs1.reverse with
  | c :: rest => if isQuoteChar c then rest.reverse else cs1
  | [] => cs1

/-! ### `Number(string)` on decimal numerals -/

def digitsToNat (cs : List Char) : ℕ :=
  cs.foldl (fun a c => 10 * a + (c.toNat - 48)) 0

/-- Exponent suffix of a decimal numeral: `""` means exponent `0`;
`e`/`E` followed by an optionally signed digit string gives that
exponent; anything else fails. -/
def jsParseExpPart : List Char → Option ℤ
  | [] => some 0
  | c :: rest =>
    if c == 'e' || c == 'E' then
      match rest with
      | '+' :: ds =>
        if !ds.isEmpty && ds.all isDigitChar then some (digitsToNat ds : ℤ) else none
      | '-' :: ds =>
        if !ds.isEmpty && ds.all isDigitChar then some (-(digitsToNat ds : ℤ)) else none
      | ds =>
        if !ds.isEmpty && ds.all isDigitChar then some (digitsToNat ds : ℤ) else none
    else none

/-- The rational `m * 10 ^ (e - s)`: mantissa digits `m`, `s` digits
after the decimal point, exponent `e`.  Written with one `mkRat` over
integer arithmetic so that it evaluates inside the kernel. -/
def decimalValue (m : ℕ) (s : ℕ) (e : ℤ) : ℚ :=
  if (s : ℤ) ≤ e then mkRat ((m : ℤ) * 10 ^ (e - (s : ℤ)).toNat) 1
  else mkRat (m : ℤ) (10 ^ ((s : ℤ) - e).toNat)

def jsParseUnsigned (cs : List Char) : Option ℚ :=
  let ip := cs.takeWhile isDigitChar
  let rest := cs.dropWhile isDigitChar
  match rest with
  | '.' :: rest2 =>
    let fp := rest2.takeWhile isDigitChar
    let rest3 := rest2.dropWhile isDigitChar
    if ip.isEmpty && fp.isEmpty then none
    else
      match jsParseExpPart rest3 with
      | some e => some (decimalValue (digitsToNat (ip ++ fp)) fp.length e)
      | none => none
  | _ =>
    if ip.isEmpty then none
    else
      match jsParseExpPart rest with
      | some e => some (decimalValue (digitsToNat ip) 0 e)
      | none => none

/-- `Number(s)` for decimal numerals: `none` models `NaN`.  The empty or
all-whitespace string converts to `0`, as in JavaScript. -/
def jsNumber (s : String) : Option ℚ :=
  match jsTrimList s.data with
  | [] => some 0
  | '+' :: cs => jsParseUnsigned cs
  | '-' :: cs => (jsParseUnsigned cs).map (fun q => -q)
  | cs => jsParseUnsigned cs

/-! ### Data model -/

structure WordEmbedding where
  word : String
  x : ℚ
  y : ℚ
  pos : Option String
deriving DecidableEq, Repr

structure Model where
  name : String
  embeddings : JsMap String WordEmbedding
deriving DecidableEq, Repr

structure Paragraph where
  id : String
  text : String
  words : List String
deriving DecidableEq, Repr

/-- The React state of the `App` component (the fields the core logic
touches; UI-only state such as the theme flag is omitted). -/
structure AppState where
  models : List Model
  activeModelIndex : ℤ
  highlightedWords : List String
  wordMeanings : JsMap String String
  wordPos : JsMap String String
  savedParagraphs : List Paragraph
  activeParagraphId : Option String
  expandedParagraphId : Option String
deriving DecidableEq, Repr

/-- `models[i]` for a possibly negative index: `none` both for the `-1`
sentinel and for out-of-range access (where the JS code would fault). -/
def modelAt (st : AppState) (i : ℤ) : Option Model :=
  if i < 0 then none else st.models.get? i.toNat

def activeModel (st : AppState) : Option Model :=
  modelAt st st.activeModelIndex

def highlightInvariantHolds (st : AppState) : Bool :=
  st.highlightedWords.all (fun w =>
    match activeModel st with
    | some m => jsMapContains m.embeddings w
    | none => false)

/-! ### CSV ingestion (`handleFileUpload`) -/

def cleanWord (raw : String) : String :=
  String.mk (stripQuotesList (jsTrimList raw.data))

def cleanCoord (raw : String) : String :=
  String.mk (jsTrimList (stripQuotesList raw.data))

/-- One iteration of the `results.data.forEach` body: the accumulator is
the embeddings map under construction and the invalid-row counter. -/
def processRow (wordPos : JsMap String String)
    (acc : JsMap String WordEmbedding × ℕ) (row : List String) :
    JsMap String WordEmbedding × ℕ :=
  if row.length < 3 then acc
  else
    let word := cleanWord (row.getD 2 "")
    let xStr := cleanCoord (row.getD 0 "")
    let yStr := cleanCoord (row.getD 1 "")
    if word = "" || word = "." then acc
    else
      match jsNumber xStr, jsNumber yStr with
      | some x, some y =>
        let lowerWord := jsLower word
        (jsMapSet acc.1 lowerWord ⟨word, x, y, jsMapGet wordPos lowerWord⟩, acc.2)
      | _, _ => (acc.1, acc.2 + 1)

def parseEmbeddings (wordPos : JsMap String String) (rows : List (List String)) :
    JsMap String WordEmbedding × ℕ :=
  rows.foldl (processRow wordPos) ([], 0)

inductive LoadResult
  | emptyModel
  | loaded (size invalid : ℕ)
deriving DecidableEq, Repr

/-- The state effect of `handleFileUpload` once the CSV is parsed into
`rows`: on success the new model is appended and
`activeModelIndex` is set to the previous `models.length`;
`highlightedWords` is left untouched. -/
def handleFileUpload (st : AppState) (name : String) (rows : List (List String)) :
    AppState × LoadResult :=
  let parsed := parseEmbeddings st.wordPos rows
  if parsed.1.length = 0 then (st, .emptyModel)
  else
    ({ st with
        models := st.models ++ [⟨name, parsed.1⟩],
        activeModelIndex := (st.models.length : ℤ) },
     .loaded parsed.1.length parsed.2)

/-! Row classification used to state the counting claims. -/

def rowCleanWord (row : List String) : String := cleanWord (row.getD 2 "")

def rowHasShape (row : List String) : Bool := decide (3 ≤ row.length)

def rowWordOk (row : List String) : Bool :=
  !(rowCleanWord row == "") && !(rowCleanWord row == ".")

def rowCoordsOk (row : List String) : Bool :=
  (jsNumber (cleanCoord (row.getD 0 ""))).isSome &&
  (jsNumber (cleanCoord (row.getD 1 ""))).isSome

/-- A row that survives the shape and word checks but fails numeric
parsing: exactly the rows the code counts in `invalidCount`. -/
def rowInvalid (row : List String) : Bool :=
  rowHasShape row && rowWordOk row && !(rowCoordsOk row)

def rowValid (row : List String) : Bool :=
  rowHasShape row && rowWordOk row && rowCoordsOk row

def rowKey (row : List String) : String := jsLower (rowCleanWord row)

def rowEmbeddingVal (wordPos : JsMap String String) (row : List String) : WordEmbedding :=
  { word := rowCleanWord row,
    x := (jsNumber (cleanCoord (row.getD 0 ""))).getD 0,
    y := (jsNumber (cleanCoord (row.getD 1 ""))).getD 0,
    pos := jsMapGet wordPos (rowKey row) }

/-! ### Dictionary service (`fetchWordData`, `getWordPosDirectly`) -/

/-- Outcome of one dictionary request for a word.
`fetchError` is a network failure or unparseable body (the `fetch` /
`response.json()` calls throw); `missingEntry` is a successfully parsed
body in which `data[0].meanings[0]` is absent (e.g. the API's
"no definitions found" object); `entry defs tag` is a first meaning with
its definition strings and its optional `partOfSpeech` field. -/
inductive DictResponse
  | fetchError
  | missingEntry
  | entry (definitions : List String) (partOfSpeech : Option String)
deriving DecidableEq, Repr

/-- The normalization cascade both fetchers apply to
`data[0].meanings[0].partOfSpeech`. -/
def normalizePos (tag : Option String) : String :=
  if tag = some "noun" then "noun"
  else if tag = some "verb" then "verb"
  else if tag = some "adjective" then "adjective"
  else if tag = some "adverb" then "adverb"
  else "unknown"

/-- Return value of `getWordPosDirectly`.  Reading
`definitions[0].definition` of an empty list throws inside the `try`, so
that case falls to the catch-all `return 'unknown'`. -/
def getWordPosPure : DictResponse → String
  | .fetchError => "unknown"
  | .missingEntry => "unknown"
  | .entry defs tag =>
    match defs with
    | [] => "unknown"
    | _ :: _ => normalizePos tag

/-- `getWordPosDirectly` with its side effect: on a usable entry it also
stores the first definition in `wordMeanings`. -/
def getWordPosDirectly (st : AppState) (word : String) (resp : DictResponse) :
    AppState × String :=
  match resp with
  | .fetchError => (st, "unknown")
  | .missingEntry => (st, "unknown")
  | .entry defs tag =>
    match defs with
    | [] => (st, "unknown")
    | d :: _ =>
      ({ st with wordMeanings := jsMapSet st.wordMeanings (jsLower word) d },
       normalizePos tag)

/-- `embedding.pos = pos; embeddings.set(key, embedding)` on one model,
when the key is present. -/
def setEmbeddingPos (m : Model) (key pos : String) : Model :=
  match jsMapGet m.embeddings key with
  | some e => { m with embeddings := jsMapSet m.embeddings key { e with pos := some pos } }
  | none => m

/-- The `if (activeModelIndex !== -1) ... setModels(updatedModels)`
block shared by the fetchers: writes `pos` onto the active model's
embedding for `key` when both exist. -/
def updateActiveEmbeddingPos (st : AppState) (key pos : String) : AppState :=
  if st.activeModelIndex = -1 then st
  else
    match modelAt st st.activeModelIndex with
    | none => st
    | some m =>
      match jsMapGet m.embeddings key with
      | none => st
      | some _ =>
        { st with
            models := st.models.set st.activeModelIndex.toNat (setEmbeddingPos m key pos) }

/-- `fetchWordData`: the background definition fetch.  Note that in the
`missingEntry` case the guard `data && data[0] && ...` is false and the
function resolves without touching any cache. -/
def fetchWordData (st : AppState) (word : String) (resp : DictResponse) : AppState :=
  match resp with
  | .fetchError => { st with wordPos := jsMapSet st.wordPos (jsLower word) "unknown" }
  | .missingEntry => st
  | .entry defs tag =>
    match defs with
    | [] => { st with wordPos := jsMapSet st.wordPos (jsLower word) "unknown" }
    | d :: _ =>
      let st1 := { st with wordMeanings := jsMapSet st.wordMeanings (jsLower word) d }
      let npos := normalizePos tag
      let st2 := { st1 with wordPos := jsMapSet st1.wordPos (jsLower word) npos }
      updateActiveEmbeddingPos st2 (jsLower word) npos

/-! ### Model management (`selectModel`, `removeModel`) -/

/-- The `for (const [word, pos] of wordPos.entries())` loop of
`selectModel`: hydrate cached tags into a copy of the embeddings map. -/
def applyCacheToEmbeddings (wordPos : JsMap String String)
    (em : JsMap String WordEmbedding) : JsMap String WordEmbedding :=
  wordPos.foldl
    (fun m kp =>
      match jsMapGet m kp.1 with
      | some e => jsMapSet m kp.1 { e with pos := some kp.2 }
      | none => m)
    em

/-- `selectModel(index)`: no-op on the active index; otherwise hydrates
the target model from the cache, activates it, and filters
`highlightedWords` down to the target's vocabulary.  Out-of-range access
(a fault in JS) is modelled as a no-op. -/
def selectModel (st : AppState) (index : ℕ) : AppState :=
  if (index : ℤ) = st.activeModelIndex then st
  else
    match st.models.get? index with
    | none => st
    | some newModel =>
      { st with
          models := st.models.set index
            { newModel with
                embeddings := applyCacheToEmbeddings st.wordPos newModel.embeddings },
          activeModelIndex := (index : ℤ),
          highlightedWords :=
            st.highlightedWords.filter (fun w => jsMapContains newModel.embeddings w) }

/-- `removeModel(indexToRemove)`. -/
def removeModel (st : AppState) (indexToRemove : ℕ) : AppState :=
  let models1 := (st.models.enum.filter (fun p => !(p.1 == indexToRemove))).map (fun p => p.2)
  if st.activeModelIndex = (indexToRemove : ℤ) then
    { st with models := models1, activeModelIndex := -1, highlightedWords := [] }
  else if (indexToRemove : ℤ) < st.activeModelIndex then
    { st with models := models1, activeModelIndex := st.activeModelIndex - 1 }
  else
    { st with models := models1 }

/-! ### Single-word search (`handleSearch`) -/

inductive SearchResult
  | emptyWord
  | noActiveModel
  | fault
  | wordNotFound
  | alreadyHighlighted
  | added (pos : String)
deriving DecidableEq, Repr

/-- `handleSearch` with the dictionary outcome for the searched word
supplied as `resp`.  `fault` marks the state (unreachable through the
UI) where `activeModelIndex` is neither `-1` nor a valid index, where
the JS code would throw. -/
def handleSearch (st : AppState) (searchWord : String) (resp : DictResponse) :
    AppState × SearchResult :=
  let word := jsLower (jsTrim searchWord)
  if word = "" then (st, .emptyWord)
  else if st.activeModelIndex = -1 then (st, .noActiveModel)
  else
    match modelAt st st.activeModelIndex with
    | none => (st, .fault)
    | some am =>
      if !(jsMapContains am.embeddings word) then (st, .wordNotFound)
      else if !(st.highlightedWords.contains word) then
        if jsMapContains st.wordPos word then
          let pos :=
            match jsMapGet st.wordPos word with
            | some p => if p = "" then "unknown" else p
            | none => "unknown"
          ({ st with highlightedWords := st.highlightedWords ++ [word] }, .added pos)
        else
          let fetched := getWordPosDirectly st word resp
          let st2 := { fetched.1 with
            wordPos := jsMapSet fetched.1.wordPos (jsLower word) fetched.2 }
          let st3 := updateActiveEmbeddingPos st2 word fetched.2
          ({ st3 with highlightedWords := st3.highlightedWords ++ [word] },
           .added fetched.2)
      else (st, .alreadyHighlighted)

/-! ### Paragraph extraction (`handleParagraphSubmit`) -/

/-- One character under `.replace(/[^\w\s]|_/g, " ")`. -/
def punctToSpace (c : Char) : Char :=
  if (!(isWordChar c) && !(isWsChar c)) || c == '_' then ' ' else c

/-- `.replace(/\s+/g, " ")`: every maximal whitespace run becomes one
space. -/
def collapseWs : List Char → List Char
  | [] => []
  | [c] => if isWsChar c then [' '] else [c]
  | c1 :: c2 :: rest =>
    if isWsChar c1 then
      if isWsChar c2 then collapseWs (c2 :: rest)
      else ' ' :: collapseWs (c2 :: rest)
    else c1 :: collapseWs (c2 :: rest)

/-- `String.prototype.split` on the characters satisfying `p`: chunks
between separators, empty chunks kept. -/
def splitOnPred (p : Char → Bool) : List Char → List (List Char)
  | [] => [[]]
  | c :: rest =>
    if p c then [] :: splitOnPred p rest
    else
      match splitOnPred p rest with
      | t :: ts => (c :: t) :: ts
      | [] => [[c]]

/-- `[...new Set(words)]`: deduplication keeping first occurrences. -/
def dedupFirstAux [DecidableEq α] (seen : List α) : List α → List α
  | [] => []
  | x :: xs =>
    if seen.contains x then dedupFirstAux seen xs
    else x :: dedupFirstAux (x :: seen) xs

def dedupFirst [DecidableEq α] (l : List α) : List α := dedupFirstAux [] l

/-- The maximal runs of non-`p` characters of a list, in order: the
canonical form both tokenization pipelines are proved equal to. -/
def wordsBy (p : Char → Bool) : List Char → List (List Char)
  | [] => []
  | c :: rest =>
    if p c then wordsBy p rest
    else (c :: rest.takeWhile (fun x => !(p x))) ::
      wordsBy p (rest.dropWhile (fun x => !(p x)))
termination_by l => l.length
decreasing_by
  · simp
  · have hd := (@List.dropWhile_suffix _ rest (fun x => !(p x))).sublist.length_le
    simp
    omega

/-- The non-empty chunks of a split. -/
def neChunks (p : Char → Bool) (l : List Char) : List (List Char) :=
  (splitOnPred p l).filter (fun t => !t.isEmpty)

/-- The token list of `handleParagraphSubmit`, before deduplication:
trim, lower-case, punctuation to spaces, collapse whitespace, trim,
split on single spaces, drop empty tokens and tokens containing a
digit. -/
def extractTokens (text : String) : List String :=
  let cs := jsTrimList text.data
  let cs := jsLowerList cs
  let cs := cs.map punctToSpace
  let cs := collapseWs cs
  let cs := jsTrimList cs
  ((splitOnPred (fun c => c == ' ') cs).filter
      (fun t => !t.isEmpty && !(t.any isDigitChar))).map String.mk

/-- `foundWords`: unique tokens that exist in the model. -/
def foundWords (m : Model) (text : String) : List String :=
  (dedupFirst (extractTokens text)).filter (fun w => jsMapContains m.embeddings w)

/-- Modelled from the spec: the extraction pipeline as §4.4 words it —
lower-case the text, replace every non-word character (and underscore)
with whitespace, split into maximal whitespace-free tokens (collapsing
runs and dropping empties), discard tokens containing a digit,
deduplicate keeping first occurrences, keep tokens in the model's
vocabulary.  Used only to compare against the source pipeline. -/
def claimExtract (m : Model) (text : String) : List String :=
  let cs := (jsLowerList text.data).map punctToSpace
  let toks := (splitOnPred isWsChar cs).filter
    (fun t => !t.isEmpty && !(t.any isDigitChar))
  (dedupFirst (toks.map String.mk)).filter (fun w => jsMapContains m.embeddings w)

inductive ParaResult
  | emptyInput
  | noActiveModel
  | fault
  | noMatch
  | proceeds (found : List String)
deriving DecidableEq, Repr

/-- The synchronous prefix of `handleParagraphSubmit`, up to the
`foundWords.length === 0` check. -/
def handleParagraphCheck (st : AppState) (text : String) : ParaResult :=
  if jsTrim text = "" then .emptyInput
  else if st.activeModelIndex = -1 then .noActiveModel
  else
    match modelAt st st.activeModelIndex with
    | none => .fault
    | some am =>
      let fw := foundWords am text
      if fw.isEmpty then .noMatch else .proceeds fw

/-! ### Batched classification (`processParagraphWords`) -/

def posBatchSize : ℕ := 25

/-- Scheduler events of the batch loop: one concurrently-processed
batch, or the inter-batch `setTimeout` pause. -/
inductive BatchEvent
  | classifyGroup (batch : List String)
  | sleep (ms : ℕ)
deriving DecidableEq, Repr

/-- The event trace of the `for (let i = 0; ...; i += batchSize)` loop:
each batch is `await`ed as a unit; a 100 ms sleep is issued only when
`i + batchSize < foundWords.length`. -/
def batchTrace : List String → List BatchEvent
  | [] => []
  | w :: rest =>
    BatchEvent.classifyGroup ((w :: rest).take posBatchSize) ::
      (if posBatchSize < (w :: rest).length then
        BatchEvent.sleep 100 :: batchTrace ((w :: rest).drop posBatchSize)
      else [])
termination_by l => l.length
decreasing_by simp [List.length_drop, posBatchSize]; omega

/-- The `foundWords.slice(i, i + batchSize)` partition. -/
def chunksOf : List String → List (List String)
  | [] => []
  | w :: rest => (w :: rest).take posBatchSize :: chunksOf ((w :: rest).drop posBatchSize)
termination_by l => l.length
decreasing_by simp [List.length_drop, posBatchSize]; omega

def eventBatch : BatchEvent → Option (List String)
  | .classifyGroup b => some b
  | .sleep _ => none

/-- How one word of a batch is handled, as a function of the captured
state: already-highlighted words are skipped, cached words short-circuit
the network, the rest are fetched. -/
inductive WordAction
  | skip
  | useCache (pos : String)
  | fetchRemote
deriving DecidableEq, Repr

def batchWordAction (st : AppState) (w : String) : WordAction :=
  if st.highlightedWords.contains w then .skip
  else
    match jsMapGet st.wordPos w with
    | some p => .useCache p
    | none => .fetchRemote

/-- One word of `batch.map(async (word) => ...)`.  `snapshot` is the
state captured by the closure (React renders it stale for the whole
run); `st` is the evolving state receiving the functional updates.  The
stale `const updatedModels = [...models]` write is reproduced as such:
it rebuilds `models` from the snapshot. -/
def processOneWord (snapshot : AppState) (oracle : String → DictResponse)
    (st : AppState) (w : String) : AppState × Option String :=
  if snapshot.highlightedWords.contains w then (st, none)
  else if jsMapContains snapshot.wordPos w then (st, some w)
  else
    let fetched := getWordPosDirectly st w (oracle w)
    let st2 := { fetched.1 with
      wordPos := jsMapSet fetched.1.wordPos (jsLower w) fetched.2 }
    let st3 :=
      if snapshot.activeModelIndex = -1 then st2
      else
        match modelAt snapshot snapshot.activeModelIndex with
        | none => st2
        | some m =>
          match jsMapGet m.embeddings (jsLower w) with
          | none => st2
          | some _ =>
            { st2 with
                models := snapshot.models.set snapshot.activeModelIndex.toNat
                  (setEmbeddingPos m (jsLower w) fetched.2) }
    (st3, some w)

/-- The whole word loop: threads the evolving state and accumulates
`wordsToAdd` in order.  (`Promise.all` keeps batch order, and batches
are concatenated in order, so the fold over `foundWords` is the fold
over the concatenation of the batches.) -/
def processWordsAcc (snapshot : AppState) (oracle : String → DictResponse)
    (acc : AppState × List String) (ws : List String) : AppState × List String :=
  ws.foldl
    (fun a w =>
      let r := processOneWord snapshot oracle a.1 w
      (r.1, match r.2 with | some x => a.2 ++ [x] | none => a.2))
    acc

/-- Tail of `processParagraphWords` after the loop: create and store the
paragraph and extend the highlight set only when `wordsToAdd` is
non-empty.  Returns whether a paragraph was created. -/
def processParagraphWords (snapshot : AppState) (oracle : String → DictResponse)
    (text : String) (paraId : String) (fw : List String) : AppState × Bool :=
  let run := processWordsAcc snapshot oracle (snapshot, []) fw
  if !run.2.isEmpty then
    ({ run.1 with
        savedParagraphs := run.1.savedParagraphs ++ [⟨paraId, jsTrim text, run.2⟩],
        highlightedWords := snapshot.highlightedWords ++ run.2 },
     true)
  else (run.1, false)

/-! ### Paragraph management (`removeParagraph`, `toggleActiveParagraph`) -/

def removeParagraph (st : AppState) (paraId : String) : AppState :=
  match st.savedParagraphs.find? (fun p => p.id = paraId) with
  | none => st
  | some p =>
    { st with
        highlightedWords := st.highlightedWords.filter (fun w => !(p.words.contains w)),
        savedParagraphs := st.savedParagraphs.filter (fun q => !(q.id == paraId)),
        activeParagraphId :=
          if st.activeParagraphId = some paraId then none else st.activeParagraphId,
        expandedParagraphId :=
          if st.expandedParagraphId = some paraId then none else st.expandedParagraphId }

def toggleActiveParagraph (st : AppState) (paraId : String) : AppState :=
  if st.activeParagraphId = some paraId then { st with activeParagraphId := none }
  else { st with activeParagraphId := some paraId }

/-! ### Concrete fixtures used by witnesses and counterexamples -/

def dogModel : Model := ⟨"A", [("dog", ⟨"dog", 0, 0, none⟩)]⟩

def emptyState : AppState :=
  { models := [], activeModelIndex := -1, highlightedWords := [],
    wordMeanings := [], wordPos := [], savedParagraphs := [],
    activeParagraphId := none, expandedParagraphId := none }

def dogState : AppState :=
  { emptyState with models := [dogModel], activeModelIndex := 0,
                    highlightedWords := ["dog"] }

def fiveWordModel : Model :=
  ⟨"five",
   [("the", ⟨"the", 0, 0, none⟩), ("quick", ⟨"quick", 0, 0, none⟩),
    ("brown", ⟨"brown", 0, 0, none⟩), ("fox", ⟨"fox", 0, 0, none⟩),
    ("jumps", ⟨"jumps", 0, 0, none⟩)]⟩

def fiveWordState : AppState :=
  { emptyState with models := [fiveWordModel], activeModelIndex := 0 }

def paraP1 : Paragraph := ⟨"p1", "first text", ["dog", "cat"]⟩

def paraP2 : Paragraph := ⟨"p2", "second text", ["bird"]⟩

def paraState : AppState :=
  { emptyState with
      highlightedWords := ["dog", "bird", "cat"],
      savedParagraphs := [paraP1, paraP2],
      activeParagraphId := some "p1",
      expandedParagraphId := some "p2" }

def exampleRows : List (List String) :=
  [["0.1", "0.2", "Apple"], ["x", "0.3", "dog"], ["0.5", "0.6", "."]]

def catRows : List (List String) := [["0.1", "0.2", "cat"]]

def twoModelState : AppState :=
  { emptyState with models := [dogModel, fiveWordModel], activeModelIndex := 0,
                    highlightedWords := ["dog"] }

/-- The keys of the valid rows, in order. -/
def validRowKeys (rows : List (List String)) : List String :=
  (rows.filter rowValid).map rowKey

/-! ## Theorems -/

/-! ### Basic `JsMap` lemmas -/

theorem jsMapGet_cons_pos [DecidableEq α] (p : α × β) (m : JsMap α β) (k : α)
    (h : p.1 = k) : jsMapGet (p :: m) k = some p.2 := by
  unfold jsMapGet
  rw [List.find?_cons_of_pos _ (by simp [h])]
  rfl

theorem jsMapGet_cons_neg [DecidableEq α] (p : α × β) (m : JsMap α β) (k : α)
    (h : ¬ p.1 = k) : jsMapGet (p :: m) k = jsMapGet m k := by
  unfold jsMapGet
  rw [List.find?_cons_of_neg _ (by simp [h])]

theorem jsMapGet_map_update_ne [DecidableEq α] (m : JsMap α β) (k k' : α) (v : β)
    (h : k' ≠ k) :
    jsMapGet (m.map (fun p => if p.1 = k then (k, v) else p)) k' = jsMapGet m k' := by
  induction m with
  | nil => rfl
  | cons p m ih =>
    rw [List.map_cons]
    by_cases hp : p.1 = k
    · rw [if_pos hp, jsMapGet_cons_neg _ _ _ (by simp [Ne.symm h]),
        jsMapGet_cons_neg _ _ _ (by rw [hp]; exact Ne.symm h)]
      exact ih
    · by_cases hp' : p.1 = k'
      · rw [if_neg hp, jsMapGet_cons_pos _ _ _ hp', jsMapGet_cons_pos _ _ _ hp']
      · rw [if_neg hp, jsMapGet_cons_neg _ _ _ hp', jsMapGet_cons_neg _ _ _ hp']
        exact ih

theorem jsMapGet_map_update_eq [DecidableEq α] (m : JsMap α β) (k : α) (v : β)
    (h : jsMapContains m k = true) :
    jsMapGet (m.map (fun p => if p.1 = k then (k, v) else p)) k = some v := by
  induction m with
  | nil => simp [jsMapContains] at h
  | cons p m ih =>
    rw [List.map_cons]
    by_cases hp : p.1 = k
    · rw [if_pos hp, jsMapGet_cons_pos _ _ _ rfl]
    · have h' : jsMapContains m k = true := by
        simpa [jsMapContains, hp] using h
      rw [if_neg hp, jsMapGet_cons_neg _ _ _ hp]
      exact ih h'

theorem jsMapGet_of_not_contains [DecidableEq α] (m : JsMap α β) (k : α)
    (h : jsMapContains m k = false) : jsMapGet m k = none := by
  induction m with
  | nil => rfl
  | cons p m ih =>
    simp only [jsMapContains, List.any_cons, Bool.or_eq_false_iff,
      decide_eq_false_iff_not] at h
    rw [jsMapGet_cons_neg _ _ _ h.1]
    exact ih (by simpa [jsMapContains] using h.2)

theorem jsMapGet_append_single_eq [DecidableEq α] (m : JsMap α β) (k : α) (v : β)
    (h : jsMapContains m k = false) :
    jsMapGet (m ++ [(k, v)]) k = some v := by
  induction m with
  | nil => exact jsMapGet_cons_pos _ _ _ rfl
  | cons p m ih =>
    simp only [jsMapContains, List.any_cons, Bool.or_eq_false_iff,
      decide_eq_false_iff_not] at h
    rw [List.cons_append, jsMapGet_cons_neg _ _ _ h.1]
    exact ih (by simpa [jsMapContains] using h.2)

theorem jsMapGet_append_single_ne [DecidableEq α] (m : JsMap α β) (k k' : α) (v : β)
    (h : ¬ k' = k) :
    jsMapGet (m ++ [(k, v)]) k' = jsMapGet m k' := by
  induction m with
  | nil =>
    rw [List.nil_append, jsMapGet_cons_neg _ _ _ (by simpa using Ne.symm h)]
  | cons p m ih =>
    by_cases hp : p.1 = k'
    · rw [List.cons_append, jsMapGet_cons_pos _ _ _ hp, jsMapGet_cons_pos _ _ _ hp]
    · rw [List.cons_append, jsMapGet_cons_neg _ _ _ hp, jsMapGet_cons_neg _ _ _ hp]
      exact ih

/-- `Map.set` then `Map.get`: the just-written key reads back, others are
unchanged. -/
theorem jsMapGet_set [DecidableEq α] (m : JsMap α β) (k k' : α) (v : β) :
    jsMapGet (jsMapSet m k v) k' = if k' = k then some v else jsMapGet m k' := by
  unfold jsMapSet
  by_cases hc : jsMapContains m k = true
  · rw [if_pos hc]
    by_cases hk : k' = k
    · subst hk
      rw [if_pos rfl]
      exact jsMapGet_map_update_eq m k' v hc
    · rw [if_neg hk]
      exact jsMapGet_map_update_ne m k k' v hk
  · rw [if_neg hc]
    have hc' : jsMapContains m k = false := by
      simpa using hc
    by_cases hk : k' = k
    · subst hk
      rw [if_pos rfl]
      exact jsMapGet_append_single_eq m k' v hc'
    · rw [if_neg hk]
      exact jsMapGet_append_single_ne m k k' v hk

theorem jsMapKeys_cons (p : α × β) (m : JsMap α β) :
    jsMapKeys (p :: m) = p.1 :: jsMapKeys m := rfl

theorem jsMapKeys_map_update [DecidableEq α] (m : JsMap α β) (k : α) (v : β) :
    jsMapKeys (m.map (fun p => if p.1 = k then (k, v) else p)) = jsMapKeys m := by
  induction m with
  | nil => rfl
  | cons p m ih =>
    rw [List.map_cons, jsMapKeys_cons, jsMapKeys_cons, ih]
    by_cases hp : p.1 = k
    · rw [if_pos hp, hp]
    · rw [if_neg hp]

theorem jsMapKeys_set [DecidableEq α] (m : JsMap α β) (k : α) (v : β) :
    jsMapKeys (jsMapSet m k v)
      = if jsMapContains m k then jsMapKeys m else jsMapKeys m ++ [k] := by
  unfold jsMapSet
  by_cases hc : jsMapContains m k = true
  · rw [if_pos hc, if_pos hc]
    exact jsMapKeys_map_update m k v
  · rw [if_neg hc, if_neg hc]
    simp [jsMapKeys]

theorem jsMapContains_iff_mem [DecidableEq α] (m : JsMap α β) (k : α) :
    jsMapContains m k = true ↔ k ∈ jsMapKeys m := by
  simp [jsMapContains, List.any_eq_true, jsMapKeys, List.mem_map]

theorem jsMapLength_set [DecidableEq α] (m : JsMap α β) (k : α) (v : β) :
    (jsMapSet m k v).length
      = if jsMapContains m k then m.length else m.length + 1 := by
  unfold jsMapSet
  by_cases hc : jsMapContains m k = true
  · rw [if_pos hc, if_pos hc, List.length_map]
  · rw [if_neg hc, if_neg hc, List.length_append]
    rfl

theorem jsMapContains_set [DecidableEq α] (m : JsMap α β) (k k' : α) (v : β) :
    jsMapContains (jsMapSet m k v) k' = (jsMapContains m k' || decide (k' = k)) := by
  rw [Bool.eq_iff_iff]
  simp only [jsMapContains_iff_mem, jsMapKeys_set, Bool.or_eq_true, decide_eq_true_eq]
  by_cases hc : jsMapContains m k = true
  · have hmem : k ∈ jsMapKeys m := (jsMapContains_iff_mem m k).mp hc
    rw [if_pos hmem]
    constructor
    · intro h; exact Or.inl h
    · rintro (h | h)
      · exact h
      · subst h; exact hmem
  · have hmem : ¬ k ∈ jsMapKeys m := fun hx => hc ((jsMapContains_iff_mem m k).mpr hx)
    rw [if_neg hmem]
    simp [List.mem_append]

/-! ### Character lemmas -/

theorem char_le_iff_toNat (c d : Char) : c ≤ d ↔ c.toNat ≤ d.toNat := by
  simp [Char.le_def, UInt32.le_def, BitVec.le_def, Char.toNat, UInt32.toNat]

theorem char_toNat_ofNat (n : ℕ) (hv : n.isValidChar) : (Char.ofNat n).toNat = n := by
  simp [Char.ofNat, hv, Char.ofNatAux, Char.toNat, UInt32.ofNat', UInt32.toNat,
    BitVec.toNat_ofNatLt]

theorem jsLowerChar_idem (c : Char) : jsLowerChar (jsLowerChar c) = jsLowerChar c := by
  unfold jsLowerChar
  by_cases h : ('A' ≤ c ∧ c ≤ 'Z')
  · have hb : (decide ('A' ≤ c) && decide (c ≤ 'Z')) = true := by simp [h.1, h.2]
    rw [if_pos hb]
    have h90 : c.toNat ≤ 90 := by
      have := (char_le_iff_toNat c 'Z').mp h.2
      simpa using this
    have h65 : 65 ≤ c.toNat := by
      have := (char_le_iff_toNat 'A' c).mp h.1
      simpa using this
    have hv : (c.toNat + 32).isValidChar := Or.inl (by omega)
    have ht : (Char.ofNat (c.toNat + 32)).toNat = c.toNat + 32 := char_toNat_ofNat _ hv
    have hle : ¬ (Char.ofNat (c.toNat + 32) ≤ 'Z') := by
      rw [char_le_iff_toNat, ht]
      intro hcon
      have hz : ('Z').toNat = 90 := rfl
      omega
    rw [if_neg (by simp [hle])]
  · have hb : ¬ ((decide ('A' ≤ c) && decide (c ≤ 'Z')) = true) := by
      simpa [Decidable.not_and_iff_or_not] using h
    rw [if_neg hb, if_neg hb]

theorem jsLower_idem (s : String) : jsLower (jsLower s) = jsLower s := by
  unfold jsLower jsLowerList
  have hd : (String.mk (s.data.map jsLowerChar)).data = s.data.map jsLowerChar := rfl
  rw [hd, List.map_map]
  exact congrArg _ (List.map_congr_left (fun c _ => jsLowerChar_idem c))

theorem jsLowerChar_ws (c : Char) (h : isWsChar c = true) : jsLowerChar c = c := by
  simp only [isWsChar, Bool.or_eq_true, beq_iff_eq] at h
  rcases h with ((h | h) | h) | h <;> subst h <;> rfl

theorem punctToSpace_ws (c : Char) (h : isWsChar c = true) : punctToSpace c = c := by
  simp only [isWsChar, Bool.or_eq_true, beq_iff_eq] at h
  rcases h with ((h | h) | h) | h <;> subst h <;> rfl

/-! ### Further `JsMap` lemmas -/

theorem jsMapContains_of_get_some [DecidableEq α] {m : JsMap α β} {k : α} {v : β}
    (h : jsMapGet m k = some v) : jsMapContains m k = true := by
  by_cases hc : jsMapContains m k = true
  · exact hc
  · rw [jsMapGet_of_not_contains m k (by simpa using hc)] at h
    cases h

theorem jsMapContains_false_of_get_none [DecidableEq α] {m : JsMap α β} {k : α}
    (h : jsMapGet m k = none) : jsMapContains m k = false := by
  induction m with
  | nil => rfl
  | cons p m ih =>
    by_cases hp : p.1 = k
    · rw [jsMapGet_cons_pos _ _ _ hp] at h
      cases h
    · rw [jsMapGet_cons_neg _ _ _ hp] at h
      have hm := ih h
      simp only [jsMapContains, List.any_cons, Bool.or_eq_false_iff,
        decide_eq_false_iff_not] at hm ⊢
      exact ⟨hp, hm⟩

theorem jsMapGet_ne_none_of_contains [DecidableEq α] {m : JsMap α β} {k : α}
    (h : jsMapContains m k = true) : jsMapGet m k ≠ none := by
  intro hn
  rw [jsMapContains_false_of_get_none hn] at h
  cases h

theorem applyCache_keys (wp : JsMap String String) (em : JsMap String WordEmbedding) :
    jsMapKeys (applyCacheToEmbeddings wp em) = jsMapKeys em := by
  induction wp generalizing em with
  | nil => rfl
  | cons kp wp ih =>
    unfold applyCacheToEmbeddings at ih ⊢
    rw [List.foldl_cons]
    cases hg : jsMapGet em kp.1 with
    | none =>
      dsimp only
      exact ih em
    | some e =>
      dsimp only
      rw [ih, jsMapKeys_set, if_pos (jsMapContains_of_get_some hg)]

theorem applyCache_contains (wp : JsMap String String)
    (em : JsMap String WordEmbedding) (k : String) :
    jsMapContains (applyCacheToEmbeddings wp em) k = jsMapContains em k := by
  rw [Bool.eq_iff_iff]
  simp [jsMapContains_iff_mem, applyCache_keys]

theorem updateActiveEmbeddingPos_fields (st : AppState) (k p : String) :
    (updateActiveEmbeddingPos st k p).wordPos = st.wordPos ∧
    (updateActiveEmbeddingPos st k p).wordMeanings = st.wordMeanings ∧
    (updateActiveEmbeddingPos st k p).highlightedWords = st.highlightedWords ∧
    (updateActiveEmbeddingPos st k p).activeModelIndex = st.activeModelIndex ∧
    (updateActiveEmbeddingPos st k p).savedParagraphs = st.savedParagraphs := by
  unfold updateActiveEmbeddingPos
  split
  · exact ⟨rfl, rfl, rfl, rfl, rfl⟩
  · split
    · exact ⟨rfl, rfl, rfl, rfl, rfl⟩
    · split
      · exact ⟨rfl, rfl, rfl, rfl, rfl⟩
      · exact ⟨rfl, rfl, rfl, rfl, rfl⟩

theorem getWordPosDirectly_fields (st : AppState) (w : String) (resp : DictResponse) :
    (getWordPosDirectly st w resp).1.wordPos = st.wordPos ∧
    (getWordPosDirectly st w resp).1.models = st.models ∧
    (getWordPosDirectly st w resp).1.highlightedWords = st.highlightedWords ∧
    (getWordPosDirectly st w resp).1.activeModelIndex = st.activeModelIndex ∧
    (getWordPosDirectly st w resp).1.savedParagraphs = st.savedParagraphs := by
  cases resp with
  | fetchError => exact ⟨rfl, rfl, rfl, rfl, rfl⟩
  | missingEntry => exact ⟨rfl, rfl, rfl, rfl, rfl⟩
  | entry defs tag => cases defs <;> exact ⟨rfl, rfl, rfl, rfl, rfl⟩

/-! ### C5: the classification contract -/

/-- C5: classification (`getWordPosDirectly`) always succeeds with a
value of the closed taxonomy: on a usable entry it maps the first
part-of-speech tag by exact string match on noun/verb/adjective/adverb,
with anything else (including an absent tag) mapping to unknown; a
network failure, an absent entry, or a payload with no first definition
yields unknown without raising (every throwing path is caught, so the
modelled function is total). -/
theorem getWordPos_classify_contract (resp : DictResponse) :
    ((resp = DictResponse.fetchError ∨ resp = DictResponse.missingEntry) →
      getWordPosPure resp = "unknown") ∧
    (∀ tag, resp = DictResponse.entry [] tag → getWordPosPure resp = "unknown") ∧
    (∀ d ds tag, resp = DictResponse.entry (d :: ds) tag →
      getWordPosPure resp =
        if tag = some "noun" then "noun"
        else if tag = some "verb" then "verb"
        else if tag = some "adjective" then "adjective"
        else if tag = some "adverb" then "adverb"
        else "unknown") ∧
    (getWordPosPure resp = "noun" ∨ getWordPosPure resp = "verb" ∨
      getWordPosPure resp = "adjective" ∨ getWordPosPure resp = "adverb" ∨
      getWordPosPure resp = "unknown") := by
  refine ⟨?_, ?_, ?_, ?_⟩
  · rintro (rfl | rfl) <;> rfl
  · rintro tag rfl
    rfl
  · rintro d ds tag rfl
    simp only [getWordPosPure, normalizePos]
  · cases resp with
    | fetchError => right; right; right; right; rfl
    | missingEntry => right; right; right; right; rfl
    | entry defs tag =>
      cases defs with
      | nil => right; right; right; right; rfl
      | cons d ds =>
        simp only [getWordPosPure, normalizePos]
        split_ifs <;> simp

theorem getWordPos_classify_contract_witness :
    getWordPosPure (DictResponse.entry ["a word"] (some "interjection")) = "unknown" ∧
    getWordPosPure DictResponse.fetchError = "unknown" ∧
    getWordPosPure (DictResponse.entry ["a word"] (some "verb")) = "verb" := by
  refine ⟨?_, ?_, ?_⟩
  · have h := (getWordPos_classify_contract
      (DictResponse.entry ["a word"] (some "interjection"))).2.2.1
      "a word" [] (some "interjection") rfl
    simpa using h
  · exact (getWordPos_classify_contract DictResponse.fetchError).1 (Or.inl rfl)
  · have h := (getWordPos_classify_contract
      (DictResponse.entry ["a word"] (some "verb"))).2.2.1
      "a word" [] (some "verb") rfl
    simpa using h

/-! ### C9: removing a paragraph -/

/-- C9: `removeParagraph(id)` removes from the HighlightSet exactly the
words recorded in the paragraph (every other highlighted word stays, in
order), deletes that paragraph record and no other, clears the active and
expanded selections exactly when they referenced the removed paragraph,
and leaves the models, both caches and the active-model index
unchanged. -/
theorem removeParagraph_spec (st : AppState) (paraId : String) (p : Paragraph)
    (h : st.savedParagraphs.find? (fun q => q.id = paraId) = some p) :
    (removeParagraph st paraId).highlightedWords
        = st.highlightedWords.filter (fun w => !(p.words.contains w)) ∧
    (removeParagraph st paraId).savedParagraphs
        = st.savedParagraphs.filter (fun q => !(q.id == paraId)) ∧
    (removeParagraph st paraId).activeParagraphId
        = (if st.activeParagraphId = some paraId then none else st.activeParagraphId) ∧
    (removeParagraph st paraId).expandedParagraphId
        = (if st.expandedParagraphId = some paraId then none
           else st.expandedParagraphId) ∧
    (removeParagraph st paraId).models = st.models ∧
    (removeParagraph st paraId).activeModelIndex = st.activeModelIndex ∧
    (removeParagraph st paraId).wordPos = st.wordPos ∧
    (removeParagraph st paraId).wordMeanings = st.wordMeanings := by
  unfold removeParagraph
  rw [h]
  exact ⟨rfl, rfl, rfl, rfl, rfl, rfl, rfl, rfl⟩

theorem removeParagraph_spec_witness :
    (removeParagraph paraState "p1").highlightedWords = ["bird"] ∧
    (removeParagraph paraState "p1").savedParagraphs = [paraP2] ∧
    (removeParagraph paraState "p1").activeParagraphId = none ∧
    (removeParagraph paraState "p1").expandedParagraphId = some "p2" := by
  have h := removeParagraph_spec paraState "p1" paraP1 (by rfl)
  refine ⟨?_, ?_, ?_, ?_⟩
  · rw [h.1]; decide
  · rw [h.2.1]; decide
  · rw [h.2.2.1]; decide
  · rw [h.2.2.2.1]; decide

/-! ### C3: cache writes on classification -/

/-- C3 counterexample: the background definition fetch (`fetchWordData`)
can resolve without writing anything to the Part-of-Speech Cache: when
the service responds without throwing but the payload has no first
meaning (an absent dictionary entry), the state is returned untouched and
the cache still has no entry for the word, contradicting the claim that
every resolved classification leaves a non-absent cache entry. -/
theorem fetchWordData_missingEntry_cex :
    fetchWordData emptyState "dog" DictResponse.missingEntry = emptyState ∧
    jsMapGet (fetchWordData emptyState "dog" DictResponse.missingEntry).wordPos "dog"
      = none :=
  ⟨rfl, rfl⟩

/-- C3 (amended): classification writes the Part-of-Speech Cache before
returning on every path except one: `fetchWordData` leaves a non-absent
entry for every response other than the non-throwing absent-entry
payload, for which it writes nothing; a word added through
`handleSearch` always has a non-absent cache entry afterwards; and the
paragraph pipeline writes a non-absent entry for every word it sends to
the network (a cache hit there already implies a non-absent entry). -/
theorem classification_cache_writes :
    (∀ st w resp, resp ≠ DictResponse.missingEntry →
      jsMapGet (fetchWordData st w resp).wordPos (jsLower w) ≠ none) ∧
    (∀ st sw resp st' p, handleSearch st sw resp = (st', SearchResult.added p) →
      jsMapGet st'.wordPos (jsLower (jsTrim sw)) ≠ none) ∧
    (∀ snapshot oracle st w, batchWordAction snapshot w = WordAction.fetchRemote →
      jsMapGet (processOneWord snapshot oracle st w).1.wordPos (jsLower w) ≠ none) := by
  refine ⟨?_, ?_, ?_⟩
  · intro st w resp h
    cases resp with
    | fetchError =>
      show jsMapGet (jsMapSet st.wordPos (jsLower w) "unknown") (jsLower w) ≠ none
      rw [jsMapGet_set, if_pos rfl]
      simp
    | missingEntry => exact absurd rfl h
    | entry defs tag =>
      cases defs with
      | nil =>
        show jsMapGet (jsMapSet st.wordPos (jsLower w) "unknown") (jsLower w) ≠ none
        rw [jsMapGet_set, if_pos rfl]
        simp
      | cons d ds =>
        simp only [fetchWordData]
        rw [(updateActiveEmbeddingPos_fields _ _ _).1]
        rw [jsMapGet_set, if_pos rfl]
        simp
  · intro st sw resp st' p h
    unfold handleSearch at h
    by_cases h0 : jsLower (jsTrim sw) = ""
    · rw [if_pos h0] at h
      exact absurd (congrArg Prod.snd h) (by simp)
    · rw [if_neg h0] at h
      by_cases h1 : st.activeModelIndex = -1
      · rw [if_pos h1] at h
        exact absurd (congrArg Prod.snd h) (by simp)
      · rw [if_neg h1] at h
        cases hm : modelAt st st.activeModelIndex with
        | none =>
          rw [hm] at h
          dsimp only at h
          exact absurd (congrArg Prod.snd h) (by simp)
        | some am =>
          rw [hm] at h
          dsimp only at h
          by_cases h2 : jsMapContains am.embeddings (jsLower (jsTrim sw)) = true
          · rw [if_neg (by rw [h2]; simp)] at h
            by_cases h3 : st.highlightedWords.contains (jsLower (jsTrim sw)) = true
            · rw [if_neg (by rw [h3]; simp)] at h
              exact absurd (congrArg Prod.snd h) (by simp)
            · have h3f : st.highlightedWords.contains (jsLower (jsTrim sw)) = false := by
                simpa using h3
              rw [if_pos (by rw [h3f]; simp)] at h
              by_cases h4 : jsMapContains st.wordPos (jsLower (jsTrim sw)) = true
              · rw [if_pos h4] at h
                have hst : st' = { st with highlightedWords :=
                    st.highlightedWords ++ [jsLower (jsTrim sw)] } :=
                  (congrArg Prod.fst h).symm
                rw [hst]
                exact jsMapGet_ne_none_of_contains h4
              · have h4f : jsMapContains st.wordPos (jsLower (jsTrim sw)) = false := by
                  simpa using h4
                rw [if_neg (by rw [h4f]; simp)] at h
                injection h with h5 h6
                subst h5
                dsimp only
                rw [(updateActiveEmbeddingPos_fields _ _ _).1]
                dsimp only
                rw [jsLower_idem, jsMapGet_set, if_pos rfl]
                simp
          · have h2f : jsMapContains am.embeddings (jsLower (jsTrim sw)) = false := by
              simpa using h2
            rw [if_pos (by rw [h2f]; simp)] at h
            exact absurd (congrArg Prod.snd h) (by simp)
  · intro snapshot oracle st w h
    unfold batchWordAction at h
    by_cases h1 : snapshot.highlightedWords.contains w = true
    · rw [if_pos h1] at h
      cases h
    · rw [if_neg h1] at h
      cases hg : jsMapGet snapshot.wordPos w with
      | some q => rw [hg] at h; cases h
      | none =>
        have h2 : jsMapContains snapshot.wordPos w = false :=
          jsMapContains_false_of_get_none hg
        unfold processOneWord
        rw [if_neg h1, if_neg (by simp [h2])]
        simp only
        have hpre : ∀ st2 : AppState,
            (match modelAt snapshot snapshot.activeModelIndex with
              | none => st2
              | some m =>
                match jsMapGet m.embeddings (jsLower w) with
                | none => st2
                | some _ =>
                  { st2 with
                      models := snapshot.models.set snapshot.activeModelIndex.toNat
                        (setEmbeddingPos m (jsLower w)
                          (getWordPosDirectly st w (oracle w)).2) }).wordPos
              = st2.wordPos := by
          intro st2
          cases modelAt snapshot snapshot.activeModelIndex with
          | none => rfl
          | some m =>
            dsimp only
            cases jsMapGet m.embeddings (jsLower w) with
            | none => rfl
            | some e => rfl
        by_cases ha : snapshot.activeModelIndex = -1
        · rw [if_pos ha]
          rw [jsMapGet_set, if_pos rfl]
          simp
        · rw [if_neg ha, hpre]
          rw [jsMapGet_set, if_pos rfl]
          simp

theorem classification_cache_writes_witness :
    jsMapGet (fetchWordData emptyState "dog" DictResponse.fetchError).wordPos "dog"
      ≠ none := by
  have h := classification_cache_writes.1 emptyState "dog" DictResponse.fetchError
    (by simp)
  simpa using h

/-! ### C2: the HighlightSet invariant -/

theorem list_set_get?_self {α : Type} (l : List α) (i : ℕ) (a : α)
    (h : i < l.length) : (l.set i a).get? i = some a := by
  simp [List.get?_eq_getElem?, List.getElem?_set_self', List.getElem?_eq_getElem h]

/-- C2 counterexample: the HighlightSet invariant is not preserved by a
successful load.  Starting from a state satisfying the invariant (one
model containing `dog`, with `dog` highlighted), uploading a CSV whose
model lacks `dog` appends that model and makes it active, but leaves the
HighlightSet untouched, so the invariant is violated in the resulting
state. -/
theorem load_breaks_highlight_invariant_cex :
    highlightInvariantHolds dogState = true ∧
    (handleFileUpload dogState "B" catRows).1.activeModelIndex = 1 ∧
    (handleFileUpload dogState "B" catRows).1.highlightedWords = ["dog"] ∧
    highlightInvariantHolds (handleFileUpload dogState "B" catRows).1 = false := by
  exact ⟨by decide, by decide, by decide, by decide⟩

/-- C2 (amended): `selectModel` to a fresh valid index establishes the
HighlightSet invariant by filtering the HighlightSet down to the new
model's vocabulary; a successful load appends the new Model and makes it
the active model, but leaves the HighlightSet unchanged, so loads do not
in general preserve the invariant. -/
theorem highlight_invariant_after_ops :
    (∀ (st : AppState) (index : ℕ), (index : ℤ) ≠ st.activeModelIndex →
      index < st.models.length →
      highlightInvariantHolds (selectModel st index) = true) ∧
    (∀ st name rows, (handleFileUpload st name rows).2 ≠ LoadResult.emptyModel →
      (handleFileUpload st name rows).1.highlightedWords = st.highlightedWords ∧
      (handleFileUpload st name rows).1.activeModelIndex = (st.models.length : ℤ) ∧
      (handleFileUpload st name rows).1.models
        = st.models ++ [⟨name, (parseEmbeddings st.wordPos rows).1⟩]) := by
  constructor
  · intro st index h1 h2
    unfold selectModel
    rw [if_neg h1, List.get?_eq_get h2]
    dsimp only
    unfold highlightInvariantHolds
    rw [List.all_eq_true]
    intro w hw
    rw [List.mem_filter] at hw
    have hactive : activeModel
        { st with
            models := st.models.set index
              { st.models.get ⟨index, h2⟩ with
                  embeddings := applyCacheToEmbeddings st.wordPos
                    (st.models.get ⟨index, h2⟩).embeddings },
            activeModelIndex := (index : ℤ),
            highlightedWords := st.highlightedWords.filter
              (fun w => jsMapContains (st.models.get ⟨index, h2⟩).embeddings w) }
        = some { st.models.get ⟨index, h2⟩ with
            embeddings := applyCacheToEmbeddings st.wordPos
              (st.models.get ⟨index, h2⟩).embeddings } := by
      unfold activeModel modelAt
      dsimp only
      rw [if_neg (by omega)]
      rw [Int.toNat_ofNat]
      exact list_set_get?_self _ _ _ (by simpa using h2)
    rw [hactive]
    dsimp only
    rw [applyCache_contains]
    exact hw.2
  · intro st name rows h
    unfold handleFileUpload at h ⊢
    dsimp only at h ⊢
    by_cases hz : (parseEmbeddings st.wordPos rows).1.length = 0
    · rw [if_pos hz] at h
      exact absurd rfl h
    · rw [if_neg hz]
      exact ⟨rfl, rfl, rfl⟩

theorem highlight_invariant_after_ops_witness :
    highlightInvariantHolds (selectModel twoModelState 1) = true :=
  highlight_invariant_after_ops.1 twoModelState 1 (by decide) (by decide)

/-! ### C7: `addWord` error order and idempotence -/

theorem setEmbeddingPos_contains (m : Model) (k p w : String) :
    jsMapContains (setEmbeddingPos m k p).embeddings w = jsMapContains m.embeddings w := by
  unfold setEmbeddingPos
  cases hg : jsMapGet m.embeddings k with
  | none => rfl
  | some e =>
    dsimp only
    rw [jsMapContains_set]
    by_cases hw : w = k
    · subst hw
      rw [jsMapContains_of_get_some hg]
      simp
    · simp [hw]

theorem modelAt_congr (st1 st2 : AppState) (i : ℤ) (h : st1.models = st2.models) :
    modelAt st1 i = modelAt st2 i := by
  unfold modelAt
  rw [h]

theorem updateActiveEmbeddingPos_modelAt (st : AppState) (k p : String) (am : Model)
    (h : modelAt st st.activeModelIndex = some am) :
    ∃ am2, modelAt (updateActiveEmbeddingPos st k p) st.activeModelIndex = some am2 ∧
      ∀ w, jsMapContains am2.embeddings w = jsMapContains am.embeddings w := by
  have hneg : ¬ st.activeModelIndex < 0 := by
    intro hx
    unfold modelAt at h
    rw [if_pos hx] at h
    cases h
  have hget : st.models.get? st.activeModelIndex.toNat = some am := by
    unfold modelAt at h
    rwa [if_neg hneg] at h
  have hlt : st.activeModelIndex.toNat < st.models.length := by
    rcases List.get?_eq_some.mp hget with ⟨hh, _⟩
    exact hh
  unfold updateActiveEmbeddingPos
  by_cases h1 : st.activeModelIndex = -1
  · exfalso
    apply hneg
    rw [h1]
    norm_num
  · rw [if_neg h1, h]
    dsimp only
    cases hg : jsMapGet am.embeddings k with
    | none => exact ⟨am, h, fun w => rfl⟩
    | some e =>
      dsimp only
      refine ⟨setEmbeddingPos am k p, ?_, fun w => setEmbeddingPos_contains am k p w⟩
      unfold modelAt
      rw [if_neg hneg]
      dsimp only
      exact list_set_get?_self _ _ _ hlt

theorem getWordPosDirectly_snd (st : AppState) (w : String) (resp : DictResponse) :
    (getWordPosDirectly st w resp).2 = getWordPosPure resp := by
  cases resp with
  | fetchError => rfl
  | missingEntry => rfl
  | entry defs tag => cases defs <;> rfl

/-- Characterization of a successful `handleSearch`: which facts about
the input state it implies and what the output state looks like. -/
theorem handleSearch_added_spec (st : AppState) (sw : String) (resp : DictResponse)
    (st' : AppState) (p : String)
    (h : handleSearch st sw resp = (st', SearchResult.added p)) :
    st.activeModelIndex ≠ -1 ∧
    st'.activeModelIndex = st.activeModelIndex ∧
    st'.highlightedWords = st.highlightedWords ++ [jsLower (jsTrim sw)] ∧
    st.highlightedWords.contains (jsLower (jsTrim sw)) = false ∧
    (∃ am2, modelAt st' st.activeModelIndex = some am2 ∧
      jsMapContains am2.embeddings (jsLower (jsTrim sw)) = true) ∧
    (∀ q, jsMapGet st.wordPos (jsLower (jsTrim sw)) = some q → q ≠ "" → p = q) ∧
    (jsMapContains st.wordPos (jsLower (jsTrim sw)) = false →
      p = getWordPosPure resp) := by
  unfold handleSearch at h
  by_cases h0 : jsLower (jsTrim sw) = ""
  · rw [if_pos h0] at h
    exact absurd (congrArg Prod.snd h) (by simp)
  · rw [if_neg h0] at h
    by_cases h1 : st.activeModelIndex = -1
    · rw [if_pos h1] at h
      exact absurd (congrArg Prod.snd h) (by simp)
    · rw [if_neg h1] at h
      cases hm : modelAt st st.activeModelIndex with
      | none =>
        rw [hm] at h
        dsimp only at h
        exact absurd (congrArg Prod.snd h) (by simp)
      | some am =>
        rw [hm] at h
        dsimp only at h
        by_cases h2 : jsMapContains am.embeddings (jsLower (jsTrim sw)) = true
        · rw [if_neg (by rw [h2]; simp)] at h
          by_cases h3 : st.highlightedWords.contains (jsLower (jsTrim sw)) = true
          · rw [if_neg (by rw [h3]; simp)] at h
            exact absurd (congrArg Prod.snd h) (by simp)
          · have h3f : st.highlightedWords.contains (jsLower (jsTrim sw)) = false := by
              simpa using h3
            rw [if_pos (by rw [h3f]; simp)] at h
            by_cases h4 : jsMapContains st.wordPos (jsLower (jsTrim sw)) = true
            · rw [if_pos h4] at h
              injection h with h5 h6
              injection h6 with h6p
              subst h5
              refine ⟨h1, rfl, rfl, h3f, ⟨am, ?_, h2⟩, ?_, ?_⟩
              · rw [← hm]
                rfl
              · intro q hq hqne
                have hpv : p = (match jsMapGet st.wordPos (jsLower (jsTrim sw)) with
                  | some r => if r = "" then "unknown" else r
                  | none => "unknown") := h6p.symm
                rw [hq] at hpv
                dsimp only at hpv
                rw [if_neg hqne] at hpv
                exact hpv
              · intro hcf
                rw [hcf] at h4
                cases h4
            · have h4f : jsMapContains st.wordPos (jsLower (jsTrim sw)) = false := by
                simpa using h4
              rw [if_neg (by rw [h4f]; simp)] at h
              injection h with h5 h6
              injection h6 with h6p
              subst h5
              have hfields := updateActiveEmbeddingPos_fields
                { (getWordPosDirectly st (jsLower (jsTrim sw)) resp).1 with
                    wordPos := jsMapSet
                      (getWordPosDirectly st (jsLower (jsTrim sw)) resp).1.wordPos
                      (jsLower (jsLower (jsTrim sw)))
                      (getWordPosDirectly st (jsLower (jsTrim sw)) resp).2 }
                (jsLower (jsTrim sw)) (getWordPosDirectly st (jsLower (jsTrim sw)) resp).2
              have hgfields := getWordPosDirectly_fields st (jsLower (jsTrim sw)) resp
              refine ⟨h1, ?_, ?_, h3f, ?_, ?_, ?_⟩
              · dsimp only
                rw [hfields.2.2.2.1]
                dsimp only
                exact hgfields.2.2.2.1
              · dsimp only
                rw [hfields.2.2.1]
                dsimp only
                rw [hgfields.2.2.1]
              · -- the active model of the produced state
                set st2 : AppState :=
                  { (getWordPosDirectly st (jsLower (jsTrim sw)) resp).1 with
                      wordPos := jsMapSet
                        (getWordPosDirectly st (jsLower (jsTrim sw)) resp).1.wordPos
                        (jsLower (jsLower (jsTrim sw)))
                        (getWordPosDirectly st (jsLower (jsTrim sw)) resp).2 } with hst2
                have hst2idx : st2.activeModelIndex = st.activeModelIndex := by
                  rw [hst2]
                  dsimp only
                  exact hgfields.2.2.2.1
                have hst2models : st2.models = st.models := by
                  rw [hst2]
                  dsimp only
                  exact hgfields.2.1
                have hm2 : modelAt st2 st2.activeModelIndex = some am := by
                  rw [hst2idx, modelAt_congr st2 st st.activeModelIndex hst2models]
                  exact hm
                obtain ⟨am2, ham2, hcont2⟩ :=
                  updateActiveEmbeddingPos_modelAt st2 (jsLower (jsTrim sw))
                    (getWordPosDirectly st (jsLower (jsTrim sw)) resp).2 am hm2
                refine ⟨am2, ?_, ?_⟩
                · rw [← hst2idx]
                  rw [← ham2]
                  apply modelAt_congr
                  dsimp only
                · rw [hcont2]
                  exact h2
              · intro q hq hqne
                rw [jsMapGet_of_not_contains _ _ h4f] at hq
                cases hq
              · intro hcf
                rw [getWordPosDirectly_snd] at h6p
                exact h6p.symm
        · have h2f : jsMapContains am.embeddings (jsLower (jsTrim sw)) = false := by
            simpa using h2
          rw [if_pos (by rw [h2f]; simp)] at h
          exact absurd (congrArg Prod.snd h) (by simp)

/-- C7: `addWord` (handleSearch with a non-blank word) checks its errors
in a fixed order — NoActiveModel when no model is selected, else
WordNotFound when the word is absent from the active vocabulary, else
AlreadyHighlighted when the word is already present — and otherwise
appends the word to the HighlightSet with a part of speech resolved from
the cache if present, else by synchronous classification; a second
identical call after a successful add yields AlreadyHighlighted and
leaves the state (hence the HighlightSet length) unchanged. -/
theorem addWord_order_and_idempotent (st : AppState) (sw : String) (resp : DictResponse)
    (hne : jsLower (jsTrim sw) ≠ "") :
    (st.activeModelIndex = -1 →
      handleSearch st sw resp = (st, SearchResult.noActiveModel)) ∧
    (∀ am, modelAt st st.activeModelIndex = some am →
      jsMapContains am.embeddings (jsLower (jsTrim sw)) = false →
      handleSearch st sw resp = (st, SearchResult.wordNotFound)) ∧
    (∀ am, modelAt st st.activeModelIndex = some am →
      jsMapContains am.embeddings (jsLower (jsTrim sw)) = true →
      st.highlightedWords.contains (jsLower (jsTrim sw)) = true →
      handleSearch st sw resp = (st, SearchResult.alreadyHighlighted)) ∧
    (∀ am, modelAt st st.activeModelIndex = some am →
      jsMapContains am.embeddings (jsLower (jsTrim sw)) = true →
      st.highlightedWords.contains (jsLower (jsTrim sw)) = false →
      ∃ st' p, handleSearch st sw resp = (st', SearchResult.added p) ∧
        st'.highlightedWords = st.highlightedWords ++ [jsLower (jsTrim sw)] ∧
        (∀ q, jsMapGet st.wordPos (jsLower (jsTrim sw)) = some q → q ≠ "" → p = q) ∧
        (jsMapContains st.wordPos (jsLower (jsTrim sw)) = false →
          p = getWordPosPure resp)) ∧
    (∀ st' p, handleSearch st sw resp = (st', SearchResult.added p) →
      ∀ resp2, handleSearch st' sw resp2 = (st', SearchResult.alreadyHighlighted)) := by
  have hindex : ∀ am, modelAt st st.activeModelIndex = some am →
      ¬ st.activeModelIndex = -1 := by
    intro am hm h1
    unfold modelAt at hm
    rw [if_pos (by rw [h1]; norm_num)] at hm
    cases hm
  refine ⟨?_, ?_, ?_, ?_, ?_⟩
  · intro h1
    unfold handleSearch
    rw [if_neg hne, if_pos h1]
  · intro am hm hcf
    unfold handleSearch
    rw [if_neg hne, if_neg (hindex am hm), hm]
    dsimp only
    rw [if_pos (by rw [hcf]; simp)]
  · intro am hm hct hht
    unfold handleSearch
    rw [if_neg hne, if_neg (hindex am hm), hm]
    dsimp only
    rw [if_neg (by rw [hct]; simp), if_neg (by rw [hht]; simp)]
  · intro am hm hct hhf
    obtain ⟨st', p, heq⟩ : ∃ st' p,
        handleSearch st sw resp = (st', SearchResult.added p) := by
      unfold handleSearch
      rw [if_neg hne, if_neg (hindex am hm), hm]
      dsimp only
      rw [if_neg (by rw [hct]; simp), if_pos (by rw [hhf]; simp)]
      by_cases h4 : jsMapContains st.wordPos (jsLower (jsTrim sw)) = true
      · rw [if_pos h4]
        exact ⟨_, _, rfl⟩
      · rw [if_neg h4]
        exact ⟨_, _, rfl⟩
    have hspec := handleSearch_added_spec st sw resp st' p heq
    exact ⟨st', p, heq, hspec.2.2.1, hspec.2.2.2.2.2.1, hspec.2.2.2.2.2.2⟩
  · intro st' p h resp2
    have hs := handleSearch_added_spec st sw resp st' p h
    obtain ⟨am2, ham2, hcont2⟩ := hs.2.2.2.2.1
    unfold handleSearch
    rw [if_neg hne, hs.2.1, if_neg hs.1, ham2]
    dsimp only
    rw [if_neg (by rw [hcont2]; simp)]
    have hmem : st'.highlightedWords.contains (jsLower (jsTrim sw)) = true := by
      rw [hs.2.2.1]
      simp
    rw [if_neg (by rw [hmem]; simp)]

theorem addWord_order_and_idempotent_witness :
    handleSearch fiveWordState "bird" DictResponse.fetchError
      = (fiveWordState, SearchResult.wordNotFound) :=
  (addWord_order_and_idempotent fiveWordState "bird" DictResponse.fetchError
    (by decide)).2.1 fiveWordModel (by rfl) (by decide)

/-! ### C1 and C10: CSV ingestion counts and duplicate handling -/

/-- `processRow` in terms of the row classification. -/
theorem processRow_eq (wp : JsMap String String)
    (acc : JsMap String WordEmbedding × ℕ) (row : List String) :
    processRow wp acc row =
      if rowValid row then (jsMapSet acc.1 (rowKey row) (rowEmbeddingVal wp row), acc.2)
      else if rowInvalid row then (acc.1, acc.2 + 1)
      else acc := by
  unfold processRow
  by_cases hs : row.length < 3
  · rw [if_pos hs]
    have hshape : rowHasShape row = false := by
      unfold rowHasShape
      simp
      omega
    have hv : rowValid row = false := by
      unfold rowValid
      rw [hshape]
      rfl
    have hi : rowInvalid row = false := by
      unfold rowInvalid
      rw [hshape]
      rfl
    simp [hv, hi]
  · rw [if_neg hs]
    dsimp only
    have hshape : rowHasShape row = true := by
      unfold rowHasShape
      simp
      omega
    by_cases hw1 : cleanWord (row.getD 2 "") = ""
    · rw [if_pos (by rw [Bool.or_eq_true]; exact Or.inl (decide_eq_true hw1))]
      have hwo : rowWordOk row = false := by
        unfold rowWordOk rowCleanWord
        rw [show (cleanWord (row.getD 2 "") == "") = true from beq_iff_eq.mpr hw1]
        rfl
      have hv : rowValid row = false := by
        unfold rowValid
        rw [hshape, hwo]
        rfl
      have hi : rowInvalid row = false := by
        unfold rowInvalid
        rw [hshape, hwo]
        rfl
      simp [hv, hi]
    · by_cases hw2 : cleanWord (row.getD 2 "") = "."
      · rw [if_pos (by rw [Bool.or_eq_true]; exact Or.inr (decide_eq_true hw2))]
        have hwo : rowWordOk row = false := by
          unfold rowWordOk rowCleanWord
          rw [show (cleanWord (row.getD 2 "") == ".") = true from beq_iff_eq.mpr hw2]
          simp
        have hv : rowValid row = false := by
          unfold rowValid
          rw [hshape, hwo]
          rfl
        have hi : rowInvalid row = false := by
          unfold rowInvalid
          rw [hshape, hwo]
          rfl
        simp [hv, hi]
      · rw [if_neg (fun hC => by
          rw [Bool.or_eq_true] at hC
          rcases hC with hh | hh
          · exact hw1 (of_decide_eq_true hh)
          · exact hw2 (of_decide_eq_true hh))]
        have hwo : rowWordOk row = true := by
          unfold rowWordOk rowCleanWord
          rw [show (cleanWord (row.getD 2 "") == "") = false from
              beq_eq_false_iff_ne.mpr hw1,
            show (cleanWord (row.getD 2 "") == ".") = false from
              beq_eq_false_iff_ne.mpr hw2]
          rfl
        cases hx : jsNumber (cleanCoord (row.getD 0 "")) with
        | none =>
          have hco : rowCoordsOk row = false := by
            unfold rowCoordsOk
            rw [hx]
            rfl
          have hv : rowValid row = false := by
            unfold rowValid
            rw [hshape, hwo, hco]
            rfl
          have hi : rowInvalid row = true := by
            unfold rowInvalid
            rw [hshape, hwo, hco]
            rfl
          simp [hv, hi]
        | some x =>
          cases hy : jsNumber (cleanCoord (row.getD 1 "")) with
          | none =>
            have hco : rowCoordsOk row = false := by
              unfold rowCoordsOk
              rw [hx, hy]
              rfl
            have hv : rowValid row = false := by
              unfold rowValid
              rw [hshape, hwo, hco]
              rfl
            have hi : rowInvalid row = true := by
              unfold rowInvalid
              rw [hshape, hwo, hco]
              rfl
            simp [hv, hi]
          | some y =>
            have hco : rowCoordsOk row = true := by
              unfold rowCoordsOk
              rw [hx, hy]
              rfl
            have hv : rowValid row = true := by
              unfold rowValid
              rw [hshape, hwo, hco]
              rfl
            rw [if_pos hv]
            unfold rowKey rowEmbeddingVal rowCleanWord
            rw [hx, hy]
            rfl

theorem parse_invalid_count (wp : JsMap String String) :
    ∀ (rows : List (List String)) (acc : JsMap String WordEmbedding × ℕ),
      (rows.foldl (processRow wp) acc).2 = acc.2 + (rows.filter rowInvalid).length := by
  intro rows
  induction rows with
  | nil => intro acc; simp
  | cons r rows ih =>
    intro acc
    rw [List.foldl_cons, processRow_eq]
    by_cases hv : rowValid r = true
    · have hi : rowInvalid r = false := by
        unfold rowValid at hv
        unfold rowInvalid
        simp only [Bool.and_eq_true] at hv
        rw [hv.1.1, hv.1.2, hv.2]
        rfl
      rw [if_pos hv, ih]
      rw [List.filter_cons_of_neg (by simp [hi])]
    · have hv' : rowValid r = false := by simpa using hv
      rw [if_neg hv]
      by_cases hi : rowInvalid r = true
      · rw [if_pos hi, ih]
        rw [List.filter_cons_of_pos (by simp [hi])]
        simp only [List.length_cons]
        omega
      · rw [if_neg hi, ih]
        rw [List.filter_cons_of_neg (by simpa using hi)]

theorem mem_keys_set [DecidableEq α] (m : JsMap α β) (k a : α) (v : β) :
    a ∈ jsMapKeys (jsMapSet m k v) ↔ a ∈ jsMapKeys m ∨ a = k := by
  rw [jsMapKeys_set]
  by_cases hc : jsMapContains m k = true
  · rw [if_pos hc]
    constructor
    · exact fun h => Or.inl h
    · rintro (h | h)
      · exact h
      · subst h
        exact (jsMapContains_iff_mem m a).mp hc
  · rw [if_neg hc]
    simp [List.mem_append]

theorem nodup_keys_set [DecidableEq α] (m : JsMap α β) (k : α) (v : β)
    (h : (jsMapKeys m).Nodup) : (jsMapKeys (jsMapSet m k v)).Nodup := by
  rw [jsMapKeys_set]
  by_cases hc : jsMapContains m k = true
  · rw [if_pos hc]
    exact h
  · rw [if_neg hc]
    have hnm : ¬ k ∈ jsMapKeys m := fun hx => hc ((jsMapContains_iff_mem m k).mpr hx)
    simp [List.nodup_append, h, hnm]

theorem parse_fold_keys_mem (wp : JsMap String String) :
    ∀ (rows : List (List String)) (acc : JsMap String WordEmbedding × ℕ) (a : String),
      (a ∈ jsMapKeys (rows.foldl (processRow wp) acc).1 ↔
        a ∈ jsMapKeys acc.1 ∨ a ∈ validRowKeys rows) := by
  intro rows
  induction rows with
  | nil =>
    intro acc a
    simp [validRowKeys]
  | cons r rows ih =>
    intro acc a
    rw [List.foldl_cons, processRow_eq]
    by_cases hv : rowValid r = true
    · rw [if_pos hv]
      rw [ih]
      have hkeys : validRowKeys (r :: rows) = rowKey r :: validRowKeys rows := by
        unfold validRowKeys
        rw [List.filter_cons_of_pos (by simp [hv])]
        rfl
      rw [hkeys]
      dsimp only
      rw [mem_keys_set]
      simp only [List.mem_cons]
      tauto
    · rw [if_neg hv]
      have hkeys : validRowKeys (r :: rows) = validRowKeys rows := by
        unfold validRowKeys
        rw [List.filter_cons_of_neg (by simpa using hv)]
      rw [hkeys]
      by_cases hi : rowInvalid r = true
      · rw [if_pos hi]
        exact ih _ a
      · rw [if_neg hi]
        exact ih acc a

theorem parse_fold_keys_nodup (wp : JsMap String String) :
    ∀ (rows : List (List String)) (acc : JsMap String WordEmbedding × ℕ),
      (jsMapKeys acc.1).Nodup →
      (jsMapKeys (rows.foldl (processRow wp) acc).1).Nodup := by
  intro rows
  induction rows with
  | nil => exact fun acc h => h
  | cons r rows ih =>
    intro acc h
    rw [List.foldl_cons, processRow_eq]
    by_cases hv : rowValid r = true
    · rw [if_pos hv]
      exact ih _ (nodup_keys_set _ _ _ h)
    · rw [if_neg hv]
      by_cases hi : rowInvalid r = true
      · rw [if_pos hi]
        exact ih _ h
      · rw [if_neg hi]
        exact ih acc h

theorem parse_size (wp : JsMap String String) (rows : List (List String)) :
    (parseEmbeddings wp rows).1.length = (validRowKeys rows).dedup.length := by
  unfold parseEmbeddings
  have hnodup := parse_fold_keys_nodup wp rows ([], 0) (by simp [jsMapKeys])
  have hlen : (rows.foldl (processRow wp) ([], 0)).1.length
      = (jsMapKeys (rows.foldl (processRow wp) ([], 0)).1).length := by
    unfold jsMapKeys
    rw [List.length_map]
  rw [hlen, ← List.toFinset_card_of_nodup hnodup, ← List.card_toFinset]
  congr 1
  apply Finset.ext
  intro a
  simp only [List.mem_toFinset]
  rw [parse_fold_keys_mem wp rows ([], 0) a]
  simp [jsMapKeys]

theorem getLast?_cons {α : Type} (x : α) (l : List α) :
    (x :: l).getLast? = match l.getLast? with
      | none => some x
      | some y => some y := by
  cases l with
  | nil => rfl
  | cons y l2 =>
    rw [List.getLast?_cons_cons]
    cases hsome : (y :: l2).getLast? with
    | some z => rfl
    | none =>
      exfalso
      have hs : (y :: l2).getLast?.isSome = true := by
        rw [List.getLast?_isSome]
        simp
      rw [hsome] at hs
      cases hs

theorem parse_get_last (wp : JsMap String String) :
    ∀ (rows : List (List String)) (acc : JsMap String WordEmbedding × ℕ) (k : String),
      jsMapGet (rows.foldl (processRow wp) acc).1 k =
        match (rows.filter (fun r => rowValid r && rowKey r == k)).getLast? with
        | some r => some (rowEmbeddingVal wp r)
        | none => jsMapGet acc.1 k := by
  intro rows
  induction rows with
  | nil => intro acc k; rfl
  | cons r rows ih =>
    intro acc k
    rw [List.foldl_cons, processRow_eq]
    by_cases hv : rowValid r = true
    · rw [if_pos hv]
      by_cases hk : rowKey r = k
      · rw [List.filter_cons_of_pos (by simp [hv, hk]), getLast?_cons]
        rw [ih]
        cases hl : (rows.filter (fun r => rowValid r && rowKey r == k)).getLast? with
        | some r2 => rfl
        | none =>
          dsimp only
          rw [jsMapGet_set, if_pos hk.symm]
      · rw [List.filter_cons_of_neg (by simp [hk])]
        rw [ih]
        cases hl : (rows.filter (fun r => rowValid r && rowKey r == k)).getLast? with
        | some r2 => rfl
        | none =>
          dsimp only
          rw [jsMapGet_set, if_neg (fun hx => hk hx.symm)]
    · rw [if_neg hv]
      have hv2 : rowValid r = false := by simpa using hv
      have hfilter : (r :: rows).filter (fun r => rowValid r && rowKey r == k)
          = rows.filter (fun r => rowValid r && rowKey r == k) := by
        apply List.filter_cons_of_neg
        simp [hv2]
      by_cases hi : rowInvalid r = true
      · rw [if_pos hi]
        rw [show ((r :: rows).filter (fun r => rowValid r && rowKey r == k))
          = rows.filter (fun r => rowValid r && rowKey r == k) from hfilter]
        exact ih _ k
      · rw [if_neg hi]
        rw [show ((r :: rows).filter (fun r => rowValid r && rowKey r == k))
          = rows.filter (fun r => rowValid r && rowKey r == k) from hfilter]
        exact ih acc k

/-- C1 counterexample: on the specification's own example rows
`[("0.1","0.2","Apple"), ("x","0.3","dog"), ("0.5","0.6",".")]` the code
produces exactly one embedding (apple at (0.1, 0.2)) but reports invalid
count 1, not 2: the period-only-word row is dropped silently without
being counted, so the claimed "invalid count 2" and the claimed equation
"embedding count = rows - invalid rows" are both false here. -/
theorem loadModel_example_cex :
    (parseEmbeddings [] exampleRows).1
        = [("apple", ⟨"Apple", mkRat 1 10, mkRat 1 5, none⟩)] ∧
    (parseEmbeddings [] exampleRows).2 = 1 ∧
    ¬ ((parseEmbeddings [] exampleRows).2 = 2) ∧
    ¬ ((parseEmbeddings [] exampleRows).1.length
        = exampleRows.length - (parseEmbeddings [] exampleRows).2) :=
  ⟨by decide, by decide, by decide, by decide⟩

/-- C1 (amended): for every CSV input, the reported invalid count equals
the number of well-shaped rows whose cleaned word is acceptable but whose
coordinates fail numeric parsing — rows with an empty or period-only
word are skipped without being counted — and the embedding count equals
the number of distinct lower-cased words among the fully valid rows;
when at least one valid row exists the load succeeds and reports exactly
these two numbers (so the example rows yield one embedding, apple at
(0.1, 0.2), and invalid count 1). -/
theorem loadModel_counts (st : AppState) (name : String) (rows : List (List String)) :
    (parseEmbeddings st.wordPos rows).2 = (rows.filter rowInvalid).length ∧
    (parseEmbeddings st.wordPos rows).1.length = (validRowKeys rows).dedup.length ∧
    (validRowKeys rows ≠ [] →
      (handleFileUpload st name rows).2
        = LoadResult.loaded (validRowKeys rows).dedup.length
            (rows.filter rowInvalid).length) := by
  have hinv : (parseEmbeddings st.wordPos rows).2 = (rows.filter rowInvalid).length := by
    unfold parseEmbeddings
    rw [parse_invalid_count st.wordPos rows ([], 0)]
    simp
  have hsize := parse_size st.wordPos rows
  refine ⟨hinv, hsize, ?_⟩
  intro hne
  unfold handleFileUpload
  dsimp only
  rw [if_neg ?hz]
  case hz =>
    rw [hsize]
    simp only [List.length_eq_zero, List.dedup_eq_nil]
    exact hne
  rw [hsize, hinv]

theorem loadModel_counts_witness :
    (handleFileUpload emptyState "m" exampleRows).2 = LoadResult.loaded 1 1 := by
  have h := (loadModel_counts emptyState "m" exampleRows).2.2 (by decide)
  rw [h]
  decide

/-- C10: when several valid rows share the same lower-cased word, the
loaded model keeps exactly one embedding under that key — looking any
key up returns the embedding built from the last valid row carrying it
(that row's original-case word and coordinates) — the keys of the map
are free of duplicates, the embedding count is the number of distinct
lower-cased words among the valid rows, and it can be strictly smaller
than the number of valid rows. -/
theorem loadModel_last_wins (wp : JsMap String String) (rows : List (List String))
    (k : String) :
    (jsMapGet (parseEmbeddings wp rows).1 k
      = match (rows.filter (fun r => rowValid r && rowKey r == k)).getLast? with
        | some r => some (rowEmbeddingVal wp r)
        | none => none) ∧
    (jsMapKeys (parseEmbeddings wp rows).1).Nodup ∧
    (parseEmbeddings wp rows).1.length = (validRowKeys rows).dedup.length ∧
    ∃ dupRows : List (List String),
      (dupRows.filter rowValid).length = 2 ∧
      (parseEmbeddings ([] : JsMap String String) dupRows).1.length = 1 := by
  refine ⟨?_, ?_, parse_size wp rows, ?_⟩
  · unfold parseEmbeddings
    rw [parse_get_last wp rows ([], 0) k]
    cases (rows.filter (fun r => rowValid r && rowKey r == k)).getLast? with
    | some r => rfl
    | none => rfl
  · exact parse_fold_keys_nodup wp rows ([], 0) (by simp [jsMapKeys])
  · exact ⟨[["0", "0", "Apple"], ["1", "1", "APPLE"]], by decide, by decide⟩

/-! ### C4: tokenization lemmas -/

theorem takeWhile_append_all (q : Char → Bool) :
    ∀ (a b : List Char), (∀ x ∈ a, q x = true) →
      (a ++ b).takeWhile q = a ++ b.takeWhile q := by
  intro a
  induction a with
  | nil => intro b _; rfl
  | cons c a ih =>
    intro b h
    rw [List.cons_append, List.takeWhile_cons, if_pos (h c (by simp)), List.cons_append]
    rw [ih b (fun x hx => h x (by simp [hx]))]

theorem dropWhile_append_all (q : Char → Bool) :
    ∀ (a b : List Char), (∀ x ∈ a, q x = true) →
      (a ++ b).dropWhile q = b.dropWhile q := by
  intro a
  induction a with
  | nil => intro b _; rfl
  | cons c a ih =>
    intro b h
    rw [List.cons_append, List.dropWhile_cons, if_pos (h c (by simp))]
    exact ih b (fun x hx => h x (by simp [hx]))

theorem takeWhile_all_eq (q : Char → Bool) (a : List Char)
    (h : ∀ x ∈ a, q x = true) : a.takeWhile q = a := by
  have := takeWhile_append_all q a [] h
  simpa using this

theorem takeWhile_congr_mem (p q : Char → Bool) :
    ∀ l : List Char, (∀ x ∈ l, p x = q x) → l.takeWhile p = l.takeWhile q := by
  intro l
  induction l with
  | nil => intro _; rfl
  | cons c l ih =>
    intro h
    rw [List.takeWhile_cons, List.takeWhile_cons, h c (by simp),
      ih (fun x hx => h x (by simp [hx]))]

theorem dropWhile_congr_mem (p q : Char → Bool) :
    ∀ l : List Char, (∀ x ∈ l, p x = q x) → l.dropWhile p = l.dropWhile q := by
  intro l
  induction l with
  | nil => intro _; rfl
  | cons c l ih =>
    intro h
    rw [List.dropWhile_cons, List.dropWhile_cons, h c (by simp),
      ih (fun x hx => h x (by simp [hx]))]

theorem dropWhile_shape (q : Char → Bool) :
    ∀ l : List Char, l.dropWhile q = [] ∨
      ∃ d t, l.dropWhile q = d :: t ∧ q d = false := by
  intro l
  induction l with
  | nil => left; rfl
  | cons c l ih =>
    rw [List.dropWhile_cons]
    by_cases h : q c = true
    · rw [if_pos h]
      exact ih
    · rw [if_neg h]
      right
      exact ⟨c, l, rfl, by simpa using h⟩

theorem splitOnPred_cons_pos (p : Char → Bool) (c : Char) (l : List Char)
    (h : p c = true) : splitOnPred p (c :: l) = [] :: splitOnPred p l := by
  simp [splitOnPred, h]

theorem splitOnPred_cons_neg (p : Char → Bool) (c : Char) (l : List Char)
    (h : p c = false) :
    splitOnPred p (c :: l) = match splitOnPred p l with
      | t :: ts => (c :: t) :: ts
      | [] => [[c]] := by
  simp [splitOnPred, h]

theorem splitOnPred_all_neg (p : Char → Bool) :
    ∀ a : List Char, (∀ x ∈ a, p x = false) → splitOnPred p a = [a] := by
  intro a
  induction a with
  | nil => intro _; rfl
  | cons c a ih =>
    intro h
    rw [splitOnPred_cons_neg p c a (h c (by simp)),
      ih (fun x hx => h x (by simp [hx]))]

theorem splitOnPred_run (p : Char → Bool) :
    ∀ (a : List Char) (d : Char) (b : List Char), (∀ x ∈ a, p x = false) →
      p d = true → splitOnPred p (a ++ d :: b) = a :: splitOnPred p b := by
  intro a
  induction a with
  | nil =>
    intro d b _ hd
    rw [List.nil_append, splitOnPred_cons_pos p d b hd]
  | cons c a ih =>
    intro d b h hd
    rw [List.cons_append, splitOnPred_cons_neg p c _ (h c (by simp)),
      ih d b (fun x hx => h x (by simp [hx])) hd]

theorem wordsBy_nil (p : Char → Bool) : wordsBy p [] = [] := by
  rw [wordsBy]

theorem wordsBy_cons (p : Char → Bool) (c : Char) (l : List Char) :
    wordsBy p (c :: l) =
      if p c then wordsBy p l
      else (c :: l.takeWhile (fun x => !(p x))) ::
        wordsBy p (l.dropWhile (fun x => !(p x))) := by
  rw [wordsBy]

theorem wordsBy_cons_pos (p : Char → Bool) (c : Char) (l : List Char)
    (h : p c = true) : wordsBy p (c :: l) = wordsBy p l := by
  rw [wordsBy_cons, if_pos h]

theorem wordsBy_all_pos (p : Char → Bool) :
    ∀ l : List Char, (∀ x ∈ l, p x = true) → wordsBy p l = [] := by
  intro l
  induction l with
  | nil => intro _; exact wordsBy_nil p
  | cons c l ih =>
    intro h
    rw [wordsBy_cons_pos p c l (h c (by simp))]
    exact ih (fun x hx => h x (by simp [hx]))

theorem wordsBy_prefix_all (p : Char → Bool) :
    ∀ (pre l : List Char), (∀ x ∈ pre, p x = true) →
      wordsBy p (pre ++ l) = wordsBy p l := by
  intro pre
  induction pre with
  | nil => intro l _; rfl
  | cons c pre ih =>
    intro l h
    rw [List.cons_append, wordsBy_cons_pos p c _ (h c (by simp))]
    exact ih l (fun x hx => h x (by simp [hx]))

theorem wordsBy_run_cons (p : Char → Bool) (a b : List Char) (ha : a ≠ [])
    (hall : ∀ x ∈ a, p x = false)
    (hb : b = [] ∨ ∃ d t, b = d :: t ∧ p d = true) :
    wordsBy p (a ++ b) = a :: wordsBy p b := by
  cases a with
  | nil => exact absurd rfl ha
  | cons c a' =>
    rw [List.cons_append, wordsBy_cons, if_neg (by simp [hall c (by simp)])]
    have htake : (a' ++ b).takeWhile (fun x => !(p x)) = a' := by
      rw [takeWhile_append_all _ a' b (fun x hx => by simp [hall x (by simp [hx])])]
      rcases hb with hb | ⟨d, t, hbd, hd⟩
      · subst hb; simp
      · subst hbd
        rw [List.takeWhile_cons, if_neg (by simp [hd])]
        simp
    have hdrop : (a' ++ b).dropWhile (fun x => !(p x)) = b := by
      rw [dropWhile_append_all _ a' b (fun x hx => by simp [hall x (by simp [hx])])]
      rcases hb with hb | ⟨d, t, hbd, hd⟩
      · subst hb; simp
      · subst hbd
        rw [List.dropWhile_cons, if_neg (by simp [hd])]
    rw [htake, hdrop]

theorem mem_jsTrimList (cs : List Char) (x : Char) (h : x ∈ jsTrimList cs) : x ∈ cs := by
  unfold jsTrimList at h
  rw [List.mem_reverse] at h
  have h1 := (@List.dropWhile_suffix _ (cs.dropWhile isWsChar).reverse isWsChar).sublist.mem h
  rw [List.mem_reverse] at h1
  exact (@List.dropWhile_suffix _ cs isWsChar).sublist.mem h1

theorem wordsBy_append_ws (p : Char → Bool) :
    ∀ (n : ℕ) (cs : List Char), cs.length ≤ n →
      ∀ suf, (∀ c ∈ suf, p c = true) → wordsBy p (cs ++ suf) = wordsBy p cs := by
  intro n
  induction n with
  | zero =>
    intro cs hlen suf hsuf
    have hnil : cs = [] := List.length_eq_zero.mp (Nat.le_zero.mp hlen)
    subst hnil
    rw [List.nil_append, wordsBy_nil]
    exact wordsBy_all_pos p suf hsuf
  | succ n ih =>
    intro cs hlen suf hsuf
    cases cs with
    | nil =>
      rw [List.nil_append, wordsBy_nil]
      exact wordsBy_all_pos p suf hsuf
    | cons c rest =>
      have hrest : rest.length ≤ n := by
        simp only [List.length_cons] at hlen
        omega
      by_cases hc : p c = true
      · rw [List.cons_append, wordsBy_cons_pos p c _ hc, wordsBy_cons_pos p c rest hc]
        exact ih rest hrest suf hsuf
      · have hcf : p c = false := by simpa using hc
        have hsplit : c :: rest
            = (c :: rest.takeWhile (fun x => !(p x)))
              ++ rest.dropWhile (fun x => !(p x)) := by
          rw [List.cons_append, List.takeWhile_append_dropWhile]
        have hane : (c :: rest.takeWhile (fun x => !(p x))) ≠ [] := by simp
        have haall : ∀ x ∈ c :: rest.takeWhile (fun x => !(p x)), p x = false := by
          intro x hx
          rcases List.mem_cons.mp hx with hx | hx
          · subst hx; exact hcf
          · have := List.mem_takeWhile_imp hx
            simpa using this
        have hblen : (rest.dropWhile (fun x => !(p x))).length ≤ rest.length :=
          (@List.dropWhile_suffix _ rest (fun x => !(p x))).sublist.length_le
        rcases dropWhile_shape (fun x => !(p x)) rest with hbnil | ⟨d, t, hdt, hdp⟩
        · rw [hsplit, hbnil, List.append_nil]
          cases hsuf2 : suf with
          | nil => rw [List.append_nil]
          | cons s st =>
            rw [wordsBy_run_cons p _ (s :: st) hane haall
              (Or.inr ⟨s, st, rfl, hsuf s (by rw [hsuf2]; simp)⟩)]
            rw [wordsBy_all_pos p (s :: st) (fun x hx => hsuf x (by rw [hsuf2]; exact hx))]
            have hrun := wordsBy_run_cons p (c :: rest.takeWhile (fun x => !(p x))) []
              hane haall (Or.inl rfl)
            rw [List.append_nil] at hrun
            rw [hrun, wordsBy_nil]
        · have hd : p d = true := by simpa using hdp
          have htlen : t.length ≤ n := by
            have hlen1 : (rest.dropWhile (fun x => !(p x))).length = t.length + 1 := by
              rw [hdt]
              rfl
            omega
          rw [hsplit, hdt, List.append_assoc]
          rw [show (d :: t) ++ suf = d :: (t ++ suf) from rfl]
          rw [wordsBy_run_cons p _ (d :: (t ++ suf)) hane haall
            (Or.inr ⟨d, t ++ suf, rfl, hd⟩)]
          rw [wordsBy_run_cons p _ (d :: t) hane haall (Or.inr ⟨d, t, rfl, hd⟩)]
          rw [wordsBy_cons_pos p d _ hd, wordsBy_cons_pos p d t hd]
          rw [ih t htlen suf hsuf]

theorem neChunks_eq_wordsBy (p : Char → Bool) :
    ∀ (n : ℕ) (cs : List Char), cs.length ≤ n → neChunks p cs = wordsBy p cs := by
  intro n
  induction n with
  | zero =>
    intro cs hlen
    have hnil : cs = [] := List.length_eq_zero.mp (Nat.le_zero.mp hlen)
    subst hnil
    rw [wordsBy_nil]
    rfl
  | succ n ih =>
    intro cs hlen
    cases cs with
    | nil =>
      rw [wordsBy_nil]
      rfl
    | cons c rest =>
      have hrest : rest.length ≤ n := by
        simp only [List.length_cons] at hlen
        omega
      by_cases hc : p c = true
      · rw [wordsBy_cons_pos p c rest hc]
        unfold neChunks
        rw [splitOnPred_cons_pos p c rest hc, List.filter_cons_of_neg (by simp)]
        exact ih rest hrest
      · have hcf : p c = false := by simpa using hc
        have hsplit : c :: rest
            = (c :: rest.takeWhile (fun x => !(p x)))
              ++ rest.dropWhile (fun x => !(p x)) := by
          rw [List.cons_append, List.takeWhile_append_dropWhile]
        have hane : (c :: rest.takeWhile (fun x => !(p x))) ≠ [] := by simp
        have haall : ∀ x ∈ c :: rest.takeWhile (fun x => !(p x)), p x = false := by
          intro x hx
          rcases List.mem_cons.mp hx with hx | hx
          · subst hx; exact hcf
          · have := List.mem_takeWhile_imp hx
            simpa using this
        rcases dropWhile_shape (fun x => !(p x)) rest with hbnil | ⟨d, t, hdt, hdp⟩
        · rw [hsplit, hbnil, List.append_nil]
          unfold neChunks
          rw [splitOnPred_all_neg p _ haall]
          rw [List.filter_cons_of_pos (by simp)]
          have hrun := wordsBy_run_cons p (c :: rest.takeWhile (fun x => !(p x))) []
            hane haall (Or.inl rfl)
          rw [List.append_nil] at hrun
          rw [hrun, wordsBy_nil]
          rfl
        · have hd : p d = true := by simpa using hdp
          have htlen : t.length ≤ n := by
            have h1 : (rest.dropWhile (fun x => !(p x))).length = t.length + 1 := by
              rw [hdt]
              rfl
            have h2 : (rest.dropWhile (fun x => !(p x))).length ≤ rest.length :=
              (@List.dropWhile_suffix _ rest (fun x => !(p x))).sublist.length_le
            omega
          rw [hsplit, hdt]
          unfold neChunks
          rw [splitOnPred_run p _ d t haall hd]
          rw [List.filter_cons_of_pos (by simp)]
          rw [wordsBy_run_cons p _ (d :: t) hane haall (Or.inr ⟨d, t, rfl, hd⟩)]
          rw [wordsBy_cons_pos p d t hd]
          have := ih t htlen
          unfold neChunks at this
          rw [this]

theorem wordsBy_congr_mem (p q : Char → Bool) :
    ∀ (n : ℕ) (cs : List Char), cs.length ≤ n →
      (∀ x ∈ cs, p x = q x) → wordsBy p cs = wordsBy q cs := by
  intro n
  induction n with
  | zero =>
    intro cs hlen _
    have hnil : cs = [] := List.length_eq_zero.mp (Nat.le_zero.mp hlen)
    subst hnil
    rw [wordsBy_nil, wordsBy_nil]
  | succ n ih =>
    intro cs hlen hpq
    cases cs with
    | nil => rw [wordsBy_nil, wordsBy_nil]
    | cons c rest =>
      have hrest : rest.length ≤ n := by
        simp only [List.length_cons] at hlen
        omega
      have hc := hpq c (by simp)
      by_cases hcp : p c = true
      · rw [wordsBy_cons_pos p c rest hcp, wordsBy_cons_pos q c rest (by rw [← hc]; exact hcp)]
        exact ih rest hrest (fun x hx => hpq x (by simp [hx]))
      · have hcfp : p c = false := by simpa using hcp
        have hcfq : q c = false := by rw [← hc]; exact hcfp
        rw [wordsBy_cons, wordsBy_cons, if_neg (by simp [hcfp]), if_neg (by simp [hcfq])]
        have hrestpq : ∀ x ∈ rest, p x = q x := fun x hx => hpq x (by simp [hx])
        have htake : rest.takeWhile (fun x => !(p x)) = rest.takeWhile (fun x => !(q x)) :=
          takeWhile_congr_mem _ _ rest (fun x hx => by rw [hrestpq x hx])
        have hdropeq : rest.dropWhile (fun x => !(p x)) = rest.dropWhile (fun x => !(q x)) :=
          dropWhile_congr_mem _ _ rest (fun x hx => by rw [hrestpq x hx])
        rw [htake, ← hdropeq]
        have hdlen : (rest.dropWhile (fun x => !(p x))).length ≤ n := by
          have := (@List.dropWhile_suffix _ rest (fun x => !(p x))).sublist.length_le
          omega
        rw [ih (rest.dropWhile (fun x => !(p x))) hdlen
          (fun x hx =>
            hrestpq x ((@List.dropWhile_suffix _ rest (fun x => !(p x))).sublist.mem hx))]

theorem collapseWs_append_run :
    ∀ (a b : List Char), (∀ x ∈ a, isWsChar x = false) →
      collapseWs (a ++ b) = a ++ collapseWs b := by
  intro a
  induction a with
  | nil => intro b _; rfl
  | cons c a ih =>
    intro b h
    have hc : isWsChar c = false := h c (by simp)
    cases hab : a ++ b with
    | nil =>
      have ha : a = [] := (List.append_eq_nil.mp hab).1
      have hb : b = [] := (List.append_eq_nil.mp hab).2
      subst ha
      subst hb
      simp [collapseWs, hc]
    | cons y ys =>
      have hstep : collapseWs (c :: (a ++ b)) = c :: collapseWs (a ++ b) := by
        rw [hab]
        simp [collapseWs, hc]
      rw [List.cons_append, hstep, ih b (fun x hx => h x (by simp [hx])), List.cons_append]

theorem collapseWs_ws_head :
    ∀ (l : List Char) (d : Char), isWsChar d = true →
      ∃ t, collapseWs (d :: l) = ' ' :: t := by
  intro l
  induction l with
  | nil =>
    intro d hd
    exact ⟨[], by simp [collapseWs, hd]⟩
  | cons e l ih =>
    intro d hd
    by_cases he : isWsChar e = true
    · obtain ⟨t, ht⟩ := ih e he
      refine ⟨t, ?_⟩
      rw [show collapseWs (d :: e :: l) = collapseWs (e :: l) by simp [collapseWs, hd, he]]
      exact ht
    · refine ⟨collapseWs (e :: l), ?_⟩
      simp [collapseWs, hd, he]

theorem collapseWs_mem_ws :
    ∀ (l : List Char) (x : Char), x ∈ collapseWs l → isWsChar x = true → x = ' ' := by
  intro l
  induction l with
  | nil =>
    intro x hx
    simp [collapseWs] at hx
  | cons c l ih =>
    cases l with
    | nil =>
      intro x hx hws
      by_cases hc : isWsChar c = true
      · simp [collapseWs, hc] at hx
        exact hx
      · simp [collapseWs, hc] at hx
        subst hx
        exact absurd hws (by simp [hc])
    | cons e l2 =>
      intro x hx hws
      by_cases hc : isWsChar c = true
      · by_cases he : isWsChar e = true
        · rw [show collapseWs (c :: e :: l2) = collapseWs (e :: l2) by
            simp [collapseWs, hc, he]] at hx
          exact ih x hx hws
        · rw [show collapseWs (c :: e :: l2) = ' ' :: collapseWs (e :: l2) by
            simp [collapseWs, hc, he]] at hx
          rcases List.mem_cons.mp hx with hx | hx
          · exact hx
          · exact ih x hx hws
      · rw [show collapseWs (c :: e :: l2) = c :: collapseWs (e :: l2) by
          simp [collapseWs, hc]] at hx
        rcases List.mem_cons.mp hx with hx | hx
        · subst hx
          exact absurd hws (by simp [hc])
        · exact ih x hx hws

theorem wordsBy_collapseWs :
    ∀ (n : ℕ) (cs : List Char), cs.length ≤ n →
      wordsBy isWsChar (collapseWs cs) = wordsBy isWsChar cs := by
  intro n
  induction n with
  | zero =>
    intro cs hlen
    have hnil : cs = [] := List.length_eq_zero.mp (Nat.le_zero.mp hlen)
    subst hnil
    rfl
  | succ n ih =>
    intro cs hlen
    cases cs with
    | nil => rfl
    | cons c rest =>
      have hrest : rest.length ≤ n := by
        simp only [List.length_cons] at hlen
        omega
      by_cases hc : isWsChar c = true
      · cases rest with
        | nil =>
          rw [show collapseWs [c] = [' '] by simp [collapseWs, hc]]
          rw [wordsBy_cons_pos _ ' ' [] (by decide), wordsBy_cons_pos _ c [] hc]
        | cons e rest2 =>
          by_cases he : isWsChar e = true
          · rw [show collapseWs (c :: e :: rest2) = collapseWs (e :: rest2) by
              simp [collapseWs, hc, he]]
            rw [ih (e :: rest2) hrest, wordsBy_cons_pos _ c _ hc]
          · rw [show collapseWs (c :: e :: rest2) = ' ' :: collapseWs (e :: rest2) by
              simp [collapseWs, hc, he]]
            rw [wordsBy_cons_pos _ ' ' _ (by decide), ih (e :: rest2) hrest,
              wordsBy_cons_pos _ c _ hc]
      · have hcf : isWsChar c = false := by simpa using hc
        have hsplit : c :: rest
            = (c :: rest.takeWhile (fun x => !(isWsChar x)))
              ++ rest.dropWhile (fun x => !(isWsChar x)) := by
          rw [List.cons_append, List.takeWhile_append_dropWhile]
        have hane : (c :: rest.takeWhile (fun x => !(isWsChar x))) ≠ [] := by simp
        have haall : ∀ x ∈ c :: rest.takeWhile (fun x => !(isWsChar x)),
            isWsChar x = false := by
          intro x hx
          rcases List.mem_cons.mp hx with hx | hx
          · subst hx; exact hcf
          · have := List.mem_takeWhile_imp hx
            simpa using this
        rcases dropWhile_shape (fun x => !(isWsChar x)) rest with hbnil | ⟨d, t, hdt, hdp⟩
        · rw [hsplit, hbnil, List.append_nil]
          have hca := collapseWs_append_run (c :: rest.takeWhile (fun x => !(isWsChar x)))
            [] haall
          rw [List.append_nil] at hca
          rw [show collapseWs [] = [] from rfl, List.append_nil] at hca
          rw [hca]
        · have hd : isWsChar d = true := by simpa using hdp
          have hblen : (rest.dropWhile (fun x => !(isWsChar x))).length ≤ rest.length :=
            (@List.dropWhile_suffix _ rest (fun x => !(isWsChar x))).sublist.length_le
          have hdtlen : (d :: t).length ≤ n := by
            rw [← hdt]
            omega
          rw [hsplit, hdt]
          rw [collapseWs_append_run _ (d :: t) haall]
          obtain ⟨u, hu⟩ := collapseWs_ws_head t d hd
          rw [hu]
          rw [wordsBy_run_cons isWsChar _ (' ' :: u) hane haall
            (Or.inr ⟨' ', u, rfl, by decide⟩)]
          rw [wordsBy_run_cons isWsChar _ (d :: t) hane haall
            (Or.inr ⟨d, t, rfl, hd⟩)]
          rw [← hu, ih (d :: t) hdtlen]

theorem jsTrimList_decomp (cs : List Char) :
    ∃ pre suf, cs = pre ++ jsTrimList cs ++ suf ∧
      (∀ x ∈ pre, isWsChar x = true) ∧ (∀ x ∈ suf, isWsChar x = true) := by
  refine ⟨cs.takeWhile isWsChar,
    ((cs.dropWhile isWsChar).reverse.takeWhile isWsChar).reverse, ?_, ?_, ?_⟩
  · conv_lhs => rw [← List.takeWhile_append_dropWhile isWsChar cs]
    rw [List.append_assoc]
    congr 1
    have hrev := List.takeWhile_append_dropWhile isWsChar (cs.dropWhile isWsChar).reverse
    unfold jsTrimList
    calc cs.dropWhile isWsChar
        = ((cs.dropWhile isWsChar).reverse).reverse := (List.reverse_reverse _).symm
      _ = ((cs.dropWhile isWsChar).reverse.takeWhile isWsChar
            ++ (cs.dropWhile isWsChar).reverse.dropWhile isWsChar).reverse := by
          rw [hrev]
      _ = ((cs.dropWhile isWsChar).reverse.dropWhile isWsChar).reverse
            ++ ((cs.dropWhile isWsChar).reverse.takeWhile isWsChar).reverse := by
          rw [List.reverse_append]
  · intro x hx
    exact List.mem_takeWhile_imp hx
  · intro x hx
    rw [List.mem_reverse] at hx
    exact List.mem_takeWhile_imp hx

theorem wordsBy_jsTrimList (cs : List Char) :
    wordsBy isWsChar (jsTrimList cs) = wordsBy isWsChar cs := by
  obtain ⟨pre, suf, hdec, hpre, hsuf⟩ := jsTrimList_decomp cs
  conv_rhs => rw [hdec]
  rw [List.append_assoc, wordsBy_prefix_all isWsChar pre _ hpre,
    wordsBy_append_ws isWsChar (jsTrimList cs).length (jsTrimList cs) le_rfl suf hsuf]

theorem wordsBy_map_trim (f : Char → Char) (hf : ∀ c, isWsChar c = true → f c = c)
    (cs : List Char) :
    wordsBy isWsChar ((jsTrimList cs).map f) = wordsBy isWsChar (cs.map f) := by
  obtain ⟨pre, suf, hdec, hpre, hsuf⟩ := jsTrimList_decomp cs
  conv_rhs => rw [hdec]
  rw [List.map_append, List.map_append]
  have hpremap : pre.map f = pre := by
    rw [List.map_congr_left (fun x hx => hf x (hpre x hx))]
    exact List.map_id pre
  have hsufmap : suf.map f = suf := by
    rw [List.map_congr_left (fun x hx => hf x (hsuf x hx))]
    exact List.map_id suf
  rw [hpremap, hsufmap, List.append_assoc, wordsBy_prefix_all isWsChar pre _ hpre,
    wordsBy_append_ws isWsChar ((jsTrimList cs).map f).length _ le_rfl suf hsuf]

theorem filter_ne_nodigit (q : Char → Bool) (l : List Char) :
    (splitOnPred q l).filter (fun t => !t.isEmpty && !(t.any isDigitChar))
      = (neChunks q l).filter (fun t => !(t.any isDigitChar)) := by
  unfold neChunks
  rw [List.filter_filter]
  apply List.filter_congr
  intro t _
  rw [Bool.and_comm]

theorem fixes_ws_lowPunct : ∀ c, isWsChar c = true → (punctToSpace ∘ jsLowerChar) c = c := by
  intro c h
  have h1 := jsLowerChar_ws c h
  have h2 := punctToSpace_ws c h
  simp only [Function.comp_apply, h1, h2]

/-- The source tokenization pipeline in canonical form: the maximal
whitespace-free runs of the lower-cased, punctuation-blanked text,
minus tokens containing a digit. -/
theorem extractTokens_canonical (text : String) :
    extractTokens text
      = ((wordsBy isWsChar (text.data.map (punctToSpace ∘ jsLowerChar))).filter
          (fun t => !(t.any isDigitChar))).map String.mk := by
  have step1 : extractTokens text
      = ((splitOnPred (fun c => c == ' ')
          (jsTrimList (collapseWs
            (((jsTrimList text.data).map jsLowerChar).map punctToSpace)))).filter
          (fun t => !t.isEmpty && !(t.any isDigitChar))).map String.mk := rfl
  rw [step1, filter_ne_nodigit]
  set T := jsTrimList (collapseWs
    (((jsTrimList text.data).map jsLowerChar).map punctToSpace)) with hT
  rw [neChunks_eq_wordsBy _ T.length T le_rfl]
  have hagree : ∀ x ∈ T, (x == ' ') = isWsChar x := by
    intro x hx
    have hxc : x ∈ collapseWs (((jsTrimList text.data).map jsLowerChar).map punctToSpace) :=
      mem_jsTrimList _ x (by rw [hT] at hx; exact hx)
    by_cases hws : isWsChar x = true
    · have hsp := collapseWs_mem_ws _ x hxc hws
      subst hsp
      decide
    · have hxf : isWsChar x = false := by simpa using hws
      rw [hxf]
      have hne : ¬ x = ' ' := fun he => by rw [he] at hxf; cases hxf
      simp [hne]
  rw [wordsBy_congr_mem _ isWsChar T.length T le_rfl hagree]
  rw [hT, wordsBy_jsTrimList]
  rw [wordsBy_collapseWs
    (((jsTrimList text.data).map jsLowerChar).map punctToSpace).length _ le_rfl]
  rw [List.map_map]
  rw [wordsBy_map_trim (punctToSpace ∘ jsLowerChar) fixes_ws_lowPunct text.data]

/-- The spec-worded pipeline in the same canonical form. -/
theorem claimExtract_canonical (m : Model) (text : String) :
    claimExtract m text
      = (dedupFirst (((wordsBy isWsChar (text.data.map (punctToSpace ∘ jsLowerChar))).filter
          (fun t => !(t.any isDigitChar))).map String.mk)).filter
          (fun w => jsMapContains m.embeddings w) := by
  have step1 : claimExtract m text
      = (dedupFirst ((((splitOnPred isWsChar
            ((text.data.map jsLowerChar).map punctToSpace)).filter
          (fun t => !t.isEmpty && !(t.any isDigitChar))).map String.mk))).filter
          (fun w => jsMapContains m.embeddings w) := rfl
  rw [step1, filter_ne_nodigit]
  rw [neChunks_eq_wordsBy _ ((text.data.map jsLowerChar).map punctToSpace).length _ le_rfl]
  rw [List.map_map]

/-- C4 (amended: blank text is silently ignored before extraction begins, so
NoMatch is reported exactly when extraction over a present active model
returns no word; the spec's pipeline wording is otherwise exact).  For every
text with at least one non-whitespace character and every present active
model, the source extraction equals the spec-worded pipeline (lower-case,
blank out non-word characters, split to tokens, drop empties and tokens with
a digit, dedup keeping first occurrences, keep vocabulary words), NoMatch is
reported iff that list is empty, and otherwise the submission proceeds with
exactly that list. -/
theorem paragraph_extraction_spec (st : AppState) (text : String) (am : Model)
    (hm : modelAt st st.activeModelIndex = some am)
    (hidx : ¬ st.activeModelIndex = -1)
    (hblank : ¬ jsTrim text = "") :
    foundWords am text = claimExtract am text ∧
    (handleParagraphCheck st text = ParaResult.noMatch ↔ foundWords am text = []) ∧
    (foundWords am text ≠ [] →
      handleParagraphCheck st text = ParaResult.proceeds (foundWords am text)) := by
  have hred : handleParagraphCheck st text
      = if (foundWords am text).isEmpty then ParaResult.noMatch
        else ParaResult.proceeds (foundWords am text) := by
    unfold handleParagraphCheck
    rw [if_neg hblank, if_neg hidx, hm]
  refine ⟨?_, ?_, ?_⟩
  · unfold foundWords
    rw [extractTokens_canonical, claimExtract_canonical]
  · rw [hred]
    cases hl : foundWords am text with
    | nil => simp
    | cons a t => simp
  · intro hne
    rw [hred]
    cases hl : foundWords am text with
    | nil => exact absurd hl hne
    | cons a t => simp

/-- C4 counterexample to the unamended claim: for blank text the submission
returns before the NoMatch check, so although extraction yields the empty
list, the reported outcome is the silent empty-input return, not NoMatch. -/
theorem paragraph_blank_cex :
    handleParagraphCheck fiveWordState "   " = ParaResult.emptyInput ∧
    foundWords fiveWordModel "   " = [] ∧
    handleParagraphCheck fiveWordState "   " ≠ ParaResult.noMatch := by
  decide

theorem paragraph_extraction_spec_witness :
    (modelAt fiveWordState fiveWordState.activeModelIndex = some fiveWordModel ∧
      ¬ fiveWordState.activeModelIndex = -1 ∧
      ¬ jsTrim "The quick brown fox jumps. 123abc" = "") ∧
    foundWords fiveWordModel "The quick brown fox jumps. 123abc"
      = ["the", "quick", "brown", "fox", "jumps"] ∧
    handleParagraphCheck fiveWordState "The quick brown fox jumps. 123abc"
      = ParaResult.proceeds ["the", "quick", "brown", "fox", "jumps"] := by
  have hfw : foundWords fiveWordModel "The quick brown fox jumps. 123abc"
      = ["the", "quick", "brown", "fox", "jumps"] := by decide
  have h := (paragraph_extraction_spec fiveWordState "The quick brown fox jumps. 123abc"
    fiveWordModel (by decide) (by decide) (by decide)).2.2
    (by rw [hfw]; exact fun hc => List.noConfusion hc)
  exact ⟨⟨by decide, by decide, by decide⟩, hfw, by rw [h, hfw]⟩

theorem chunksOf_nil : chunksOf [] = [] := by
  rw [chunksOf]

theorem chunksOf_cons (w : String) (rest : List String) :
    chunksOf (w :: rest)
      = (w :: rest).take posBatchSize :: chunksOf ((w :: rest).drop posBatchSize) := by
  rw [chunksOf]

theorem batchTrace_nil : batchTrace [] = [] := by
  rw [batchTrace]

theorem batchTrace_cons (w : String) (rest : List String) :
    batchTrace (w :: rest)
      = BatchEvent.classifyGroup ((w :: rest).take posBatchSize) ::
        (if posBatchSize < (w :: rest).length then
          BatchEvent.sleep 100 :: batchTrace ((w :: rest).drop posBatchSize)
        else []) := by
  rw [batchTrace]

theorem chunksOf_ne_nil_of_ne_nil {l : List String} (h : l ≠ []) :
    chunksOf l ≠ [] := by
  cases l with
  | nil => exact absurd rfl h
  | cons w rest =>
    rw [chunksOf_cons]
    exact List.cons_ne_nil _ _

theorem batchTrace_eq_intersperse (n : ℕ) : ∀ l : List String, l.length ≤ n →
    batchTrace l = List.intersperse (BatchEvent.sleep 100)
      ((chunksOf l).map BatchEvent.classifyGroup) := by
  induction n with
  | zero =>
    intro l hl
    have hnil : l = [] := List.length_eq_zero.mp (Nat.le_zero.mp hl)
    subst hnil
    rw [batchTrace_nil, chunksOf_nil]
    rfl
  | succ n ih =>
    intro l hl
    cases l with
    | nil =>
      rw [batchTrace_nil, chunksOf_nil]
      rfl
    | cons w rest =>
      rw [batchTrace_cons, chunksOf_cons]
      by_cases hlt : posBatchSize < (w :: rest).length
      · rw [if_pos hlt]
        have hdne : (w :: rest).drop posBatchSize ≠ [] := by
          intro hnil
          have hlen := congrArg List.length hnil
          rw [List.length_drop] at hlen
          simp only [List.length_nil] at hlen
          omega
        cases hd : (w :: rest).drop posBatchSize with
        | nil => exact absurd hd hdne
        | cons d ds =>
          rw [chunksOf_cons, List.map_cons, List.map_cons,
            List.intersperse_cons_cons]
          have hdl : (d :: ds).length ≤ n := by
            have hlen := congrArg List.length hd
            rw [List.length_drop] at hlen
            simp only [List.length_cons] at hlen ⊢
            simp only [List.length_cons] at hl
            simp only [posBatchSize] at hlen
            omega
          have hrec := ih (d :: ds) hdl
          rw [chunksOf_cons, List.map_cons] at hrec
          rw [hrec]
      · rw [if_neg hlt]
        have hdnil : (w :: rest).drop posBatchSize = [] := by
          apply List.drop_eq_nil_of_le
          omega
        rw [hdnil, chunksOf_nil, List.map_cons, List.map_nil]
        rfl

theorem chunksOf_join (n : ℕ) : ∀ l : List String, l.length ≤ n →
    (chunksOf l).flatten = l := by
  induction n with
  | zero =>
    intro l hl
    have hnil : l = [] := List.length_eq_zero.mp (Nat.le_zero.mp hl)
    subst hnil
    rw [chunksOf_nil]
    rfl
  | succ n ih =>
    intro l hl
    cases l with
    | nil =>
      rw [chunksOf_nil]
      rfl
    | cons w rest =>
      rw [chunksOf_cons, List.flatten_cons]
      have hdl : ((w :: rest).drop posBatchSize).length ≤ n := by
        rw [List.length_drop]
        simp only [List.length_cons] at hl ⊢
        simp only [posBatchSize]
        omega
      rw [ih _ hdl, List.take_append_drop]

theorem chunksOf_batch_size (n : ℕ) : ∀ l : List String, l.length ≤ n →
    ∀ b ∈ chunksOf l, b ≠ [] ∧ b.length ≤ posBatchSize := by
  induction n with
  | zero =>
    intro l hl
    have hnil : l = [] := List.length_eq_zero.mp (Nat.le_zero.mp hl)
    subst hnil
    rw [chunksOf_nil]
    intro b hb
    cases hb
  | succ n ih =>
    intro l hl
    cases l with
    | nil =>
      rw [chunksOf_nil]
      intro b hb
      cases hb
    | cons w rest =>
      rw [chunksOf_cons]
      intro b hb
      cases hb with
      | head =>
        constructor
        · intro hbe
          rw [List.take_eq_nil_iff] at hbe
          cases hbe with
          | inl h0 => exact absurd h0 (by simp [posBatchSize])
          | inr hc => exact List.noConfusion hc
        · rw [List.length_take]
          exact min_le_left _ _
      | tail _ hmem =>
        have hdl : ((w :: rest).drop posBatchSize).length ≤ n := by
          rw [List.length_drop]
          simp only [List.length_cons] at hl ⊢
          simp only [posBatchSize]
          omega
        exact ih _ hdl b hmem

theorem chunksOf_full_but_last (n : ℕ) : ∀ l : List String, l.length ≤ n →
    ∀ b ∈ (chunksOf l).dropLast, b.length = posBatchSize := by
  induction n with
  | zero =>
    intro l hl
    have hnil : l = [] := List.length_eq_zero.mp (Nat.le_zero.mp hl)
    subst hnil
    rw [chunksOf_nil]
    intro b hb
    cases hb
  | succ n ih =>
    intro l hl
    cases l with
    | nil =>
      rw [chunksOf_nil]
      intro b hb
      cases hb
    | cons w rest =>
      rw [chunksOf_cons]
      cases hc : chunksOf ((w :: rest).drop posBatchSize) with
      | nil =>
        intro b hb
        cases hb
      | cons d ds =>
        have hdne : (w :: rest).drop posBatchSize ≠ [] := by
          intro hnil
          rw [hnil, chunksOf_nil] at hc
          exact List.noConfusion hc
        have hlong : posBatchSize < (w :: rest).length := by
          by_contra hle
          exact hdne (List.drop_eq_nil_of_le (by omega))
        intro b hb
        rw [show ((w :: rest).take posBatchSize :: d :: ds).dropLast
            = (w :: rest).take posBatchSize :: (d :: ds).dropLast from rfl] at hb
        cases hb with
        | head =>
          rw [List.length_take]
          omega
        | tail _ hmem =>
          have hdl : ((w :: rest).drop posBatchSize).length ≤ n := by
            rw [List.length_drop]
            simp only [List.length_cons] at hl ⊢
            simp only [posBatchSize]
            omega
          rw [← hc] at hmem
          exact ih _ hdl b hmem

/-- C6: the batch loop partitions the candidate list into order-preserving
batches of at most 25 words (all but the last exactly 25, none empty), the
trace awaits each batch as one unit with a 100 ms sleep strictly between
consecutive batches and never after the last, and within a batch an
already-highlighted word is skipped while a cached word short-circuits the
network fetch.  Intra-batch concurrency is modelled as one atomic
classifyGroup event per batch. -/
theorem batch_schedule_spec (l : List String) (st : AppState) (w : String) :
    batchTrace l = List.intersperse (BatchEvent.sleep 100)
      ((chunksOf l).map BatchEvent.classifyGroup) ∧
    (chunksOf l).flatten = l ∧
    (∀ b ∈ chunksOf l, b ≠ [] ∧ b.length ≤ posBatchSize) ∧
    (∀ b ∈ (chunksOf l).dropLast, b.length = posBatchSize) ∧
    (st.highlightedWords.contains w = true → batchWordAction st w = WordAction.skip) ∧
    (st.highlightedWords.contains w = false → jsMapContains st.wordPos w = true →
      batchWordAction st w = WordAction.useCache ((jsMapGet st.wordPos w).getD "")) ∧
    (st.highlightedWords.contains w = false → jsMapContains st.wordPos w = false →
      batchWordAction st w = WordAction.fetchRemote) := by
  refine ⟨batchTrace_eq_intersperse l.length l le_rfl,
    chunksOf_join l.length l le_rfl,
    chunksOf_batch_size l.length l le_rfl,
    chunksOf_full_but_last l.length l le_rfl, ?_, ?_, ?_⟩
  · intro hh
    unfold batchWordAction
    rw [if_pos hh]
  · intro hh hcache
    unfold batchWordAction
    rw [if_neg (fun hx => by rw [hh] at hx; exact Bool.false_ne_true hx)]
    cases hg : jsMapGet st.wordPos w with
    | none =>
      rw [jsMapContains_false_of_get_none hg] at hcache
      exact Bool.noConfusion hcache
    | some p =>
      rfl
  · intro hh hnc
    unfold batchWordAction
    rw [if_neg (fun hx => by rw [hh] at hx; exact Bool.false_ne_true hx)]
    rw [jsMapGet_of_not_contains st.wordPos w hnc]

theorem batch_schedule_spec_witness :
    batchTrace (List.replicate 26 "w")
      = [BatchEvent.classifyGroup (List.replicate 25 "w"), BatchEvent.sleep 100,
         BatchEvent.classifyGroup ["w"]] ∧
    batchWordAction dogState "dog" = WordAction.skip ∧
    batchWordAction emptyState "dog" = WordAction.fetchRemote := by
  have h1 := batch_schedule_spec (List.replicate 26 "w") dogState "dog"
  have h2 := batch_schedule_spec ([] : List String) emptyState "dog"
  refine ⟨?_, h1.2.2.2.2.1 (by decide), h2.2.2.2.2.2.2 (by decide) (by decide)⟩
  rw [h1.1,
    show List.replicate 26 "w" = "w" :: List.replicate 25 "w" from rfl,
    chunksOf_cons,
    show List.drop posBatchSize ("w" :: List.replicate 25 "w") = ["w"] from rfl,
    chunksOf_cons,
    show List.drop posBatchSize ["w"] = ([] : List String) from rfl,
    chunksOf_nil]
  decide

theorem processOneWord_effects (snapshot : AppState) (oracle : String → DictResponse)
    (st : AppState) (w : String) :
    (processOneWord snapshot oracle st w).1.savedParagraphs = st.savedParagraphs ∧
    (processOneWord snapshot oracle st w).1.highlightedWords = st.highlightedWords ∧
    (processOneWord snapshot oracle st w).2
      = if snapshot.highlightedWords.contains w then none else some w := by
  have hf := getWordPosDirectly_fields st w (oracle w)
  unfold processOneWord
  by_cases hc : snapshot.highlightedWords.contains w = true
  · rw [if_pos hc, if_pos hc]
    exact ⟨rfl, rfl, rfl⟩
  · rw [if_neg hc, if_neg hc]
    by_cases hm2 : jsMapContains snapshot.wordPos w = true
    · rw [if_pos hm2]
      exact ⟨rfl, rfl, rfl⟩
    · rw [if_neg hm2]
      dsimp only
      by_cases hidx : snapshot.activeModelIndex = -1
      · rw [if_pos hidx]
        exact ⟨hf.2.2.2.2, hf.2.2.1, rfl⟩
      · rw [if_neg hidx]
        cases hma : modelAt snapshot snapshot.activeModelIndex with
        | none =>
          dsimp only
          exact ⟨hf.2.2.2.2, hf.2.2.1, rfl⟩
        | some m =>
          dsimp only
          cases hg : jsMapGet m.embeddings (jsLower w) with
          | none =>
            dsimp only
            exact ⟨hf.2.2.2.2, hf.2.2.1, rfl⟩
          | some val =>
            dsimp only
            exact ⟨hf.2.2.2.2, hf.2.2.1, rfl⟩

theorem processWordsAcc_nil (snapshot : AppState) (oracle : String → DictResponse)
    (acc : AppState × List String) :
    processWordsAcc snapshot oracle acc [] = acc := rfl

theorem processWordsAcc_cons (snapshot : AppState) (oracle : String → DictResponse)
    (st0 : AppState) (ws0 : List String) (w : String) (rest : List String) :
    processWordsAcc snapshot oracle (st0, ws0) (w :: rest)
      = processWordsAcc snapshot oracle
          ((processOneWord snapshot oracle st0 w).1,
            match (processOneWord snapshot oracle st0 w).2 with
            | some x => ws0 ++ [x]
            | none => ws0) rest := rfl

theorem processWordsAcc_spec (snapshot : AppState) (oracle : String → DictResponse) :
    ∀ (fw : List String) (st0 : AppState) (ws0 : List String),
      (processWordsAcc snapshot oracle (st0, ws0) fw).2
        = ws0 ++ fw.filter (fun w => !(snapshot.highlightedWords.contains w)) ∧
      (processWordsAcc snapshot oracle (st0, ws0) fw).1.savedParagraphs
        = st0.savedParagraphs ∧
      (processWordsAcc snapshot oracle (st0, ws0) fw).1.highlightedWords
        = st0.highlightedWords := by
  intro fw
  induction fw with
  | nil =>
    intro st0 ws0
    exact ⟨(List.append_nil ws0).symm, rfl, rfl⟩
  | cons w rest ih =>
    intro st0 ws0
    have he := processOneWord_effects snapshot oracle st0 w
    rw [processWordsAcc_cons, he.2.2]
    by_cases hc : snapshot.highlightedWords.contains w = true
    · rw [if_pos hc]
      dsimp only
      have ihr := ih (processOneWord snapshot oracle st0 w).1 ws0
      have hfilt : (w :: rest).filter (fun x => !(snapshot.highlightedWords.contains x))
          = rest.filter (fun x => !(snapshot.highlightedWords.contains x)) := by
        exact List.filter_cons_of_neg
          (fun hx => by rw [hc] at hx; exact absurd hx (by decide))
      rw [hfilt]
      exact ⟨ihr.1, by rw [ihr.2.1, he.1], by rw [ihr.2.2, he.2.1]⟩
    · rw [if_neg hc]
      dsimp only
      have hcf : snapshot.highlightedWords.contains w = false := Bool.eq_false_iff.mpr hc
      have ihr := ih (processOneWord snapshot oracle st0 w).1 (ws0 ++ [w])
      have hfilt : (w :: rest).filter (fun x => !(snapshot.highlightedWords.contains x))
          = w :: rest.filter (fun x => !(snapshot.highlightedWords.contains x)) := by
        apply List.filter_cons_of_pos
        rw [hcf]
        decide
      rw [hfilt]
      refine ⟨?_, by rw [ihr.2.1, he.1], by rw [ihr.2.2, he.2.1]⟩
      rw [ihr.1, List.append_assoc]
      rfl

/-- C8: the stored `Paragraph.words` list is exactly the words newly added to
the highlight set by the submission — the candidate words not highlighted in
the snapshot state, in order; those same words (and only they) are appended
to the highlight set, so already-highlighted words are excluded from both,
and when no new word remains no paragraph is stored and the highlight set is
unchanged. -/
theorem paragraph_words_spec (snapshot : AppState) (oracle : String → DictResponse)
    (text paraId : String) (fw : List String) :
    (∀ w ∈ fw.filter (fun w => !(snapshot.highlightedWords.contains w)),
        snapshot.highlightedWords.contains w = false) ∧
    (fw.filter (fun w => !(snapshot.highlightedWords.contains w)) = [] →
      (processParagraphWords snapshot oracle text paraId fw).2 = false ∧
      (processParagraphWords snapshot oracle text paraId fw).1.savedParagraphs
        = snapshot.savedParagraphs ∧
      (processParagraphWords snapshot oracle text paraId fw).1.highlightedWords
        = snapshot.highlightedWords) ∧
    (fw.filter (fun w => !(snapshot.highlightedWords.contains w)) ≠ [] →
      (processParagraphWords snapshot oracle text paraId fw).2 = true ∧
      (processParagraphWords snapshot oracle text paraId fw).1.savedParagraphs
        = snapshot.savedParagraphs
          ++ [⟨paraId, jsTrim text,
                fw.filter (fun w => !(snapshot.highlightedWords.contains w))⟩] ∧
      (processParagraphWords snapshot oracle text paraId fw).1.highlightedWords
        = snapshot.highlightedWords
          ++ fw.filter (fun w => !(snapshot.highlightedWords.contains w))) := by
  have hrun := processWordsAcc_spec snapshot oracle fw snapshot []
  have h2 : (processWordsAcc snapshot oracle (snapshot, []) fw).2
      = fw.filter (fun w => !(snapshot.highlightedWords.contains w)) := hrun.1
  refine ⟨?_, ?_, ?_⟩
  · intro w hw
    have hb := (List.mem_filter.mp hw).2
    rw [Bool.not_eq_true'] at hb
    exact hb
  · intro hnil
    unfold processParagraphWords
    dsimp only
    rw [h2, hnil]
    exact ⟨rfl, hrun.2.1, hrun.2.2⟩
  · intro hne
    unfold processParagraphWords
    dsimp only
    rw [h2]
    cases hl : fw.filter (fun w => !(snapshot.highlightedWords.contains w)) with
    | nil => exact absurd hl hne
    | cons a t =>
      refine ⟨rfl, ?_, ?_⟩
      · show (processWordsAcc snapshot oracle (snapshot, []) fw).1.savedParagraphs
            ++ [⟨paraId, jsTrim text, a :: t⟩]
          = snapshot.savedParagraphs ++ [⟨paraId, jsTrim text, a :: t⟩]
        rw [hrun.2.1]
      · show snapshot.highlightedWords ++ (a :: t)
          = snapshot.highlightedWords ++ (a :: t)
        rfl

theorem paragraph_words_spec_witness :
    (["dog", "cat"].filter
        (fun w => !(dogState.highlightedWords.contains w)) = ["cat"]) ∧
    (processParagraphWords dogState (fun _ => DictResponse.missingEntry) "a dog text"
        "p9" ["dog", "cat"]).2 = true ∧
    (processParagraphWords dogState (fun _ => DictResponse.missingEntry) "a dog text"
        "p9" ["dog", "cat"]).1.savedParagraphs
      = dogState.savedParagraphs ++ [⟨"p9", jsTrim "a dog text", ["cat"]⟩] ∧
    (processParagraphWords dogState (fun _ => DictResponse.missingEntry) "a dog text"
        "p9" ["dog", "cat"]).1.highlightedWords
      = dogState.highlightedWords ++ ["cat"] := by
  have hfilt : ["dog", "cat"].filter
      (fun w => !(dogState.highlightedWords.contains w)) = ["cat"] := by decide
  have h := (paragraph_words_spec dogState (fun _ => DictResponse.missingEntry)
    "a dog text" "p9" ["dog", "cat"]).2.2 (by decide)
  refine ⟨hfilt, h.1, ?_, ?_⟩
  · rw [h.2.1, hfilt]
  · rw [h.2.2, hfilt]

end WordViz
